import Mathlib

/- Shallow embedding of the arkworks-based zk-SNARK circuit pipeline from
   src/lib.rs of the repository: the signed-integer-to-field embedding
   i32_to_fr, the Circuit IR with its Gate variants, the R1CS compiler
   to_r1cs_system, the witness evaluator compute_witness, the transfer
   helpers, and the allocation phase of the Groth16 constraint-synthesis
   adapter.  Rust HashMaps that are only ever read by key are modelled as
   association lists with first-match lookup and in-place-overwrite insert;
   iteration order of the underlying HashMap is observable nowhere that the
   claims depend on (the var_map is injective, so the projection onto
   indices is order-independent), and the embedding fixes first-insertion
   order.  Sparse coefficient rows built in the source by
   vec![...].into_iter().collect::<HashMap<_,_>>() are modelled by
   collectPairs, which replays the sequential inserts and hence merges
   duplicate keys exactly as the HashMap collect does. -/

namespace Ark

/-- Wire names are strings, as in the Rust source. -/
abbrev Name := String

/-- Order of the scalar field of BLS12-381, the modulus of the arkworks Fr type. -/
def blsScalarMod : Nat :=
  52435875175126190479447740508185965837690552500527637822603658699938581184513

/-- The scalar field Fr of BLS12-381 used by the pipeline. -/
abbrev Fr := ZMod blsScalarMod

/-- Embedding of pub fn i32_to_fr from src/lib.rs: a negative value is sent to
the additive inverse of the field image of its absolute value. -/
def i32_to_fr (val : Int) : Fr :=
  if val < 0 then -(((-val).toNat : Nat) : Fr) else ((val.toNat : Nat) : Fr)

/-- First-match lookup in an association list, modelling HashMap::get. -/
def alookup {κ α : Type} [DecidableEq κ] (k : κ) : List (κ × α) → Option α
  | [] => none
  | (k2, v2) :: rest => if k2 = k then some v2 else alookup k rest

/-- Insert-or-overwrite in an association list, modelling HashMap::insert:
an existing binding of the key is replaced in place, otherwise the new
binding is appended. -/
def aupsert {κ α : Type} [DecidableEq κ] (k : κ) (v : α) : List (κ × α) → List (κ × α)
  | [] => [(k, v)]
  | (k2, v2) :: rest => if k2 = k then (k2, v) :: rest else (k2, v2) :: aupsert k v rest

/-- In-place update of an existing binding only, modelling HashMap::get_mut
followed by an assignment through the returned reference. -/
def aadjust {α : Type} (k : Name) (f : α → α) : List (Name × α) → List (Name × α)
  | [] => []
  | (k2, v2) :: rest => if k2 = k then (k2, f v2) :: rest else (k2, v2) :: aadjust k f rest

/-- The reserved constant-one wire name. -/
def oneName : Name := "1"

/-- Suffix used to form the public balance wire names in the preamble. -/
def balSuffix : Name := "_initial_balance"

/-- Name of the public transfer-amount wire. -/
def transferName : Name := "transfer_amount_public"

/-- Separator of the auxiliary XOR product wire name. -/
def xorSep : Name := "_xor_prod_"

/-- The public balance wire name derived from an account name, as built by
format with the _initial_balance suffix in the source. -/
def balanceName (n : Name) : Name := n ++ balSuffix

/-- The auxiliary product wire name allocated by the Xor gate lowering. -/
def xorProd (a b : Name) : Name := a ++ xorSep ++ b

/-- Embedding of enum Gate from src/lib.rs. -/
inductive Gate : Type where
  | Add (a b c : Name) (modulus : Option Int)
  | Mul (a b c : Name) (modulus : Option Int)
  | Sub (a b c : Name) (modulus : Option Int)
  | Xor (a b c : Name)
  | Const (name : Name) (val : Int)
  | Hash (inp outp : Name)
  | Eq (a b outp : Name)
deriving DecidableEq

/-- Embedding of struct Circuit from src/lib.rs; the two HashMaps are
association lists. -/
structure Circuit : Type where
  name : String
  inputs : List (Name × Int)
  outputs : List (Name × Int)
  gates : List Gate
  sender : Name
  receiver : Name
  transfer_amount : Int
deriving DecidableEq

/-- Embedding of Circuit::validate_transfer. -/
def validate_transfer (c : Circuit) : Bool :=
  match alookup c.sender c.inputs with
  | some senderBalance => c.transfer_amount ≤ senderBalance
  | none => false

/-- Two's-complement wrap of an integer into the signed 32-bit range,
modelling what an i32 compound assignment stores on overflow. -/
def wrap32 (x : Int) : Int := (x + 2 ^ 31) % 2 ^ 32 - 2 ^ 31

/-- Embedding of Circuit::execute_transfer: when the transfer validates, the
sender balance is decremented and then the receiver balance (if the receiver
is a declared input) is incremented, in that order.  The source updates i32
cells with -= and +=, which wrap on overflow in release builds (debug builds
abort there, so no build computes the unbounded integer result); the
embedding wraps. -/
def execute_transfer (c : Circuit) : Circuit :=
  if validate_transfer c then
    let afterSender := aadjust c.sender (fun v => wrap32 (v - c.transfer_amount)) c.inputs
    let afterReceiver :=
      aadjust c.receiver (fun v => wrap32 (v + c.transfer_amount)) afterSender
    { c with inputs := afterReceiver }
  else c

/-- Embedding of struct _R1CSConstraintInternal: three sparse rows mapping
variable index to coefficient. -/
structure R1CSConstraint : Type where
  a : List (Nat × Fr)
  b : List (Nat × Fr)
  c : List (Nat × Fr)
deriving DecidableEq

/-- Embedding of struct R1CSSystem. -/
structure R1CSSystem : Type where
  raw_constraints : List R1CSConstraint
  var_map : List (Name × Nat)
  num_variables : Nat
  num_public_inputs : Nat
  public_input_names : List Name
deriving DecidableEq

/-- Replay of vec![...].into_iter().collect::<HashMap<usize, Fr>>(): pairs are
inserted left to right, a later pair with an already-present key overwriting
the earlier coefficient. -/
def collectPairs (l : List (Nat × Fr)) : List (Nat × Fr) :=
  l.foldl (fun m p => aupsert p.1 p.2 m) []

/-- Embedding of fn get_index: return the existing index of a name or bind the
name to the next free index. -/
def get_index (var : Name) (vm : List (Name × Nat)) (next : Nat) :
    Nat × List (Name × Nat) × Nat :=
  match alookup var vm with
  | some idx => (idx, vm, next)
  | none => (next, vm ++ [(var, next)], next + 1)

/-- The index read off by the var_map["1"] expressions of the source. -/
def oneIdx (vm : List (Name × Nat)) : Nat := (alookup oneName vm).getD 0

/-- One gate of Circuit::to_r1cs_system: index allocation followed by the
constraint rows pushed for that gate, in source order. -/
def compileGate (vm : List (Name × Nat)) (next : Nat) :
    Gate → List (Name × Nat) × Nat × List R1CSConstraint
  | .Add a b c _ =>
    let r1 := get_index a vm next
    let r2 := get_index b r1.2.1 r1.2.2
    let r3 := get_index c r2.2.1 r2.2.2
    (r3.2.1, r3.2.2,
      [⟨collectPairs [(r1.1, 1), (r2.1, 1)],
        collectPairs [(oneIdx r3.2.1, 1)],
        collectPairs [(r3.1, 1)]⟩])
  | .Mul a b c _ =>
    let r1 := get_index a vm next
    let r2 := get_index b r1.2.1 r1.2.2
    let r3 := get_index c r2.2.1 r2.2.2
    (r3.2.1, r3.2.2,
      [⟨collectPairs [(r1.1, 1)],
        collectPairs [(r2.1, 1)],
        collectPairs [(r3.1, 1)]⟩])
  | .Sub a b c _ =>
    let r1 := get_index a vm next
    let r2 := get_index b r1.2.1 r1.2.2
    let r3 := get_index c r2.2.1 r2.2.2
    (r3.2.1, r3.2.2,
      [⟨collectPairs [(r1.1, 1), (r2.1, -1)],
        collectPairs [(oneIdx r3.2.1, 1)],
        collectPairs [(r3.1, 1)]⟩])
  | .Eq a b outp =>
    let r1 := get_index a vm next
    let r2 := get_index b r1.2.1 r1.2.2
    let r3 := get_index outp r2.2.1 r2.2.2
    (r3.2.1, r3.2.2,
      [⟨collectPairs [(r1.1, 1), (r2.1, -1)],
        collectPairs [(oneIdx r3.2.1, 1)],
        collectPairs [(r3.1, 1)]⟩,
       ⟨collectPairs [(r3.1, 1)],
        collectPairs [(r3.1, 1)],
        collectPairs [(oneIdx r3.2.1, 0)]⟩])
  | .Hash inp outp =>
    let r1 := get_index inp vm next
    let r2 := get_index outp r1.2.1 r1.2.2
    (r2.2.1, r2.2.2,
      [⟨collectPairs [(r1.1, 1)],
        collectPairs [(oneIdx r2.2.1, i32_to_fr 7)],
        collectPairs [(r2.1, 1)]⟩])
  | .Const nm v =>
    let r1 := get_index nm vm next
    (r1.2.1, r1.2.2,
      [⟨collectPairs [(oneIdx r1.2.1, i32_to_fr v)],
        collectPairs [(oneIdx r1.2.1, 1)],
        collectPairs [(r1.1, 1)]⟩])
  | .Xor a b c =>
    let r1 := get_index a vm next
    let r2 := get_index b r1.2.1 r1.2.2
    let r3 := get_index (xorProd a b) r2.2.1 r2.2.2
    let r4 := get_index c r3.2.1 r3.2.2
    (r4.2.1, r4.2.2,
      [⟨collectPairs [(r1.1, 1)],
        collectPairs [(r2.1, 1)],
        collectPairs [(r3.1, 1)]⟩,
       ⟨collectPairs [(r1.1, 1), (r2.1, 1), (r3.1, i32_to_fr (-2))],
        collectPairs [(oneIdx r4.2.1, 1)],
        collectPairs [(r4.1, 1)]⟩,
       ⟨collectPairs [(r1.1, 1)],
        collectPairs [(r1.1, 1)],
        collectPairs [(r1.1, 1)]⟩,
       ⟨collectPairs [(r2.1, 1)],
        collectPairs [(r2.1, 1)],
        collectPairs [(r2.1, 1)]⟩])

/-- The gate loop of Circuit::to_r1cs_system. -/
def compileGates (vm : List (Name × Nat)) (next : Nat) :
    List Gate → List (Name × Nat) × Nat × List R1CSConstraint
  | [] => (vm, next, [])
  | g :: gs =>
    let r1 := compileGate vm next g
    let r2 := compileGates r1.1 r1.2.1 gs
    (r2.1, r2.2.1, r1.2.2 ++ r2.2.2)

/-- Compiler state threaded through the preamble of to_r1cs_system:
var_map, next free index, constraints so far, public input names so far. -/
structure PreState : Type where
  vm : List (Name × Nat)
  next : Nat
  cons : List R1CSConstraint
  pubs : List Name
deriving DecidableEq

/-- One public-input preamble step of to_r1cs_system: push the name onto
public_input_names, allocate its index, and pin the variable to the literal
field value with the constraint (v) * (1) = (1 * F(val)). -/
def pubStep (nm : Name) (val : Int) (st : PreState) : PreState :=
  let r := get_index nm st.vm st.next
  { vm := r.2.1
    next := r.2.2
    cons := st.cons ++
      [⟨collectPairs [(r.1, 1)],
        collectPairs [(oneIdx r.2.1, 1)],
        collectPairs [(oneIdx r.2.1, i32_to_fr val)]⟩]
    pubs := st.pubs ++ [nm] }

/-- The preamble of Circuit::to_r1cs_system: the sender balance (when the
sender is a declared input), then the receiver balance (when the receiver is
a declared input), then always the public transfer amount. -/
def preambleState (c : Circuit) : PreState :=
  let st0 : PreState := ⟨[(oneName, 0)], 1, [], []⟩
  let st1 := match alookup c.sender c.inputs with
             | some v => pubStep (balanceName c.sender) v st0
             | none => st0
  let st2 := match alookup c.receiver c.inputs with
             | some v => pubStep (balanceName c.receiver) v st1
             | none => st1
  pubStep transferName c.transfer_amount st2

/-- Embedding of Circuit::to_r1cs_system. -/
def to_r1cs_system (c : Circuit) : R1CSSystem :=
  let st := preambleState c
  let r := compileGates st.vm st.next c.gates
  { raw_constraints := st.cons ++ r.2.2
    var_map := r.1
    num_variables := r.2.1
    num_public_inputs := 1 + st.pubs.length
    public_input_names := st.pubs }

/-- Shape of every preamble constraint: pin the variable at the given index
to the field image of a literal, as (v) * (1) = (1 * F(val)). -/
def pinConstraint (idx : Nat) (v : Int) : R1CSConstraint :=
  ⟨[(idx, 1)], [(0, 1)], [(0, i32_to_fr v)]⟩

/-- Index bound to a name by the compiled var_map (0 when absent). -/
def varIdxOf (c : Circuit) (n : Name) : Nat :=
  (alookup n (to_r1cs_system c).var_map).getD 0

/-- Modelled from the claim wording of C4: the public input names the
preamble must append, in order. -/
def preambleNamesSpec (c : Circuit) : List Name :=
  (if (alookup c.sender c.inputs).isSome then [balanceName c.sender] else []) ++
  (if (alookup c.receiver c.inputs).isSome then [balanceName c.receiver] else []) ++
  [transferName]

/-- Modelled from the claim wording of C4: the preamble constraints that must
precede every gate constraint, each pinning its public variable to the
corresponding Circuit IR literal. -/
def preambleConstraintsSpec (c : Circuit) : List R1CSConstraint :=
  (match alookup c.sender c.inputs with
   | some v => [pinConstraint (varIdxOf c (balanceName c.sender)) v]
   | none => []) ++
  (match alookup c.receiver c.inputs with
   | some v => [pinConstraint (varIdxOf c (balanceName c.receiver)) v]
   | none => []) ++
  [pinConstraint (varIdxOf c transferName) c.transfer_amount]

/-- The error kinds of Circuit::compute_witness; each constructor corresponds
to one of the distinct format! strings returned as Err in the source. -/
inductive WitnessError : Type where
  | varNotFound (n : Name)
  | equalityMismatch (a b : Name)
  | nonBooleanInput (n : Name)
  | missingWitness (n : Name) (idx : Nat)
deriving DecidableEq

/-- One gate of the evaluation loop of Circuit::compute_witness.  Each
two-operand arm looks up the first operand and then the second, failing with
the Var-not-found error of the first missing one, exactly as the chained
ok_or_else calls of the source do. -/
def evalGate (w : List (Name × Fr)) : Gate → Except WitnessError (List (Name × Fr))
  | .Add a b c _ =>
    match alookup a w, alookup b w with
    | some av, some bv => .ok (aupsert c (av + bv) w)
    | none, _ => .error (.varNotFound a)
    | some _, none => .error (.varNotFound b)
  | .Mul a b c _ =>
    match alookup a w, alookup b w with
    | some av, some bv => .ok (aupsert c (av * bv) w)
    | none, _ => .error (.varNotFound a)
    | some _, none => .error (.varNotFound b)
  | .Sub a b c _ =>
    match alookup a w, alookup b w with
    | some av, some bv => .ok (aupsert c (av - bv) w)
    | none, _ => .error (.varNotFound a)
    | some _, none => .error (.varNotFound b)
  | .Eq a b outp =>
    match alookup a w, alookup b w with
    | some av, some bv =>
      if av ≠ bv then .error (.equalityMismatch a b)
      else .ok (aupsert outp 0 w)
    | none, _ => .error (.varNotFound a)
    | some _, none => .error (.varNotFound b)
  | .Hash inp outp =>
    match alookup inp w with
    | some iv => .ok (aupsert outp (iv * i32_to_fr 7) w)
    | none => .error (.varNotFound inp)
  | .Const nm v => .ok (aupsert nm (i32_to_fr v) w)
  | .Xor a b c =>
    match alookup a w, alookup b w with
    | some av, some bv =>
      if av = 0 ∨ av = 1 then
        if bv = 0 ∨ bv = 1 then
          .ok (aupsert c (av + bv - i32_to_fr 2 * (av * bv))
                (aupsert (xorProd a b) (av * bv) w))
        else .error (.nonBooleanInput b)
      else .error (.nonBooleanInput a)
    | none, _ => .error (.varNotFound a)
    | some _, none => .error (.varNotFound b)

/-- The gate loop of Circuit::compute_witness. -/
def evalGates (w : List (Name × Fr)) : List Gate → Except WitnessError (List (Name × Fr))
  | [] => .ok w
  | g :: gs =>
    match evalGate w g with
    | .ok w2 => evalGates w2 gs
    | .error e => .error e

/-- Seeding loop over the declared inputs of the circuit. -/
def seedInputs : List (Name × Int) → List (Name × Fr) → List (Name × Fr)
  | [], w => w
  | (n, v) :: rest, w => seedInputs rest (aupsert n (i32_to_fr v) w)

/-- The seeding phase of Circuit::compute_witness: every declared input, the
constant-one wire, the two balance wires when present, and the public
transfer amount wire. -/
def seedWires (c : Circuit) : List (Name × Fr) :=
  let w0 := seedInputs c.inputs []
  let w1 := aupsert oneName 1 w0
  let w2 := match alookup c.sender c.inputs with
            | some v => aupsert (balanceName c.sender) (i32_to_fr v) w1
            | none => w1
  let w3 := match alookup c.receiver c.inputs with
            | some v => aupsert (balanceName c.receiver) (i32_to_fr v) w2
            | none => w2
  aupsert transferName (i32_to_fr c.transfer_amount) w3

/-- The projection loop of Circuit::compute_witness: each computed wire value
whose name is bound in the var_map is keyed by its index; names absent from
the var_map are dropped. -/
def projectWitness (vm : List (Name × Nat)) :
    List (Name × Fr) → List (Nat × Fr) → List (Nat × Fr)
  | [], acc => acc
  | (n, v) :: rest, acc =>
    match alookup n vm with
    | some idx => projectWitness vm rest (aupsert idx v acc)
    | none => projectWitness vm rest acc

/-- The completeness check of Circuit::compute_witness: every index bound in
the var_map must carry a computed value. -/
def checkComplete (proj : List (Nat × Fr)) : List (Name × Nat) → Except WitnessError Unit
  | [] => .ok ()
  | (n, idx) :: rest =>
    if (alookup idx proj).isSome then checkComplete proj rest
    else .error (.missingWitness n idx)

/-- Embedding of Circuit::compute_witness. -/
def compute_witness (c : Circuit) (vm : List (Name × Nat)) :
    Except WitnessError (List (Nat × Fr)) :=
  match evalGates (seedWires c) c.gates with
  | .error e => .error e
  | .ok wires =>
    let proj := projectWitness vm wires []
    match checkComplete proj vm with
    | .error e => .error e
    | .ok _ => .ok proj

/-- Value of the assignment vector at an index: the projected witness is a
sparse index-keyed map and absent indices read as zero. -/
def zOf (w : List (Nat × Fr)) (i : Nat) : Fr := (alookup i w).getD 0

/-- Evaluation of one sparse linear-combination row against an assignment. -/
def lcEval (lc : List (Nat × Fr)) (z : Nat → Fr) : Fr :=
  (lc.map (fun p => p.2 * z p.1)).sum

/-- Satisfaction of one R1CS constraint: (A dot z) * (B dot z) = (C dot z). -/
def constraintHolds (z : Nat → Fr) (con : R1CSConstraint) : Prop :=
  lcEval con.a z * lcEval con.b z = lcEval con.c z

/-- Satisfaction of every emitted constraint by a projected witness. -/
def satisfiesAll (sys : R1CSSystem) (w : List (Nat × Fr)) : Prop :=
  ∀ con ∈ sys.raw_constraints, constraintHolds (zOf w) con

/-- The wire names written by the evaluation of one gate (the Xor lowering
also writes its auxiliary product wire). -/
def gateWrites : Gate → List Name
  | .Add _ _ c _ => [c]
  | .Mul _ _ c _ => [c]
  | .Sub _ _ c _ => [c]
  | .Xor a b c => [xorProd a b, c]
  | .Const n _ => [n]
  | .Hash _ o => [o]
  | .Eq _ _ o => [o]

/-- All wire names written across a gate sequence, in order. -/
def writesList : List Gate → List Name
  | [] => []
  | g :: gs => gateWrites g ++ writesList gs

/-- Per-gate operand distinctness: the gates whose compiled rows sum two
operand coefficients into one sparse map require the two operand names to
differ, otherwise the HashMap collect merges the coefficients. -/
def gateArgsOK : Gate → Prop
  | .Add a b _ _ => a ≠ b
  | .Sub a b _ _ => a ≠ b
  | .Eq a b _ => a ≠ b
  | .Xor a b _ => a ≠ b
  | _ => True

instance : DecidablePred gateArgsOK := by
  intro g
  cases g <;> simp only [gateArgsOK] <;> infer_instance

/-- Straight-line discipline on a circuit: no gate writes a wire that is
seeded or written by any other write event, and the two-operand gates have
distinct operands. -/
def StraightLine (c : Circuit) : Prop :=
  (writesList c.gates).Nodup ∧
  (∀ n ∈ (seedWires c).map Prod.fst, n ∉ writesList c.gates) ∧
  (∀ g ∈ c.gates, gateArgsOK g)

instance (c : Circuit) : Decidable (StraightLine c) := by
  unfold StraightLine
  infer_instance

instance (sys : R1CSSystem) (w : List (Nat × Fr)) : Decidable (satisfiesAll sys w) := by
  unfold satisfiesAll constraintHolds
  infer_instance

/-- The semantic record left in the final wire valuation by one successfully
evaluated gate. -/
def GateHolds (L : Name → Option Fr) : Gate → Prop
  | .Add a b c _ => ∃ va vb, L a = some va ∧ L b = some vb ∧ L c = some (va + vb)
  | .Mul a b c _ => ∃ va vb, L a = some va ∧ L b = some vb ∧ L c = some (va * vb)
  | .Sub a b c _ => ∃ va vb, L a = some va ∧ L b = some vb ∧ L c = some (va - vb)
  | .Eq a b o => ∃ va, L a = some va ∧ L b = some va ∧ L o = some 0
  | .Hash i o => ∃ vi, L i = some vi ∧ L o = some (vi * i32_to_fr 7)
  | .Const n v => L n = some (i32_to_fr v)
  | .Xor a b c => ∃ va vb, L a = some va ∧ L b = some vb ∧
      (va = 0 ∨ va = 1) ∧ (vb = 0 ∨ vb = 1) ∧
      L (xorProd a b) = some (va * vb) ∧
      L c = some (va + vb - i32_to_fr 2 * (va * vb))

/-- Error kind of the constraint-synthesis adapter. -/
inductive SynthErr : Type where
  | assignmentMissing
deriving DecidableEq

/-- Kind of a host-SNARK variable allocation. -/
inductive AllocKind : Type where
  | input
  | witness
deriving DecidableEq

/-- One host-SNARK allocation event of Groth16CircuitAdapter::generate_constraints:
the kind of variable requested, the original R1CS index it stands for, and
the value passed to the allocation closure. -/
structure AllocEvent : Type where
  kind : AllocKind
  origIdx : Nat
  value : Fr
deriving DecidableEq

/-- The public-input allocation loop of generate_constraints: one public
input per entry of public_input_names, bound to the assignment value at the
mapped index or to zero when no assignment is present. -/
def allocPublics (vm : List (Name × Nat)) (wa : Option (List (Nat × Fr))) :
    List Name → List Nat → List AllocEvent → Except SynthErr (List Nat × List AllocEvent)
  | [], alloc, evs => .ok (alloc, evs)
  | n :: rest, alloc, evs =>
    match alookup n vm with
    | none => .error .assignmentMissing
    | some idx =>
      allocPublics vm wa rest (alloc ++ [idx])
        (evs ++ [⟨.input, idx, (wa.bind (alookup idx)).getD 0⟩])

/-- The private-witness allocation loop of generate_constraints: every
original index from 0 to num_variables - 1 not yet allocated becomes a
private witness, in increasing index order. -/
def allocPrivates (wa : Option (List (Nat × Fr))) (alloc : List Nat)
    (evs : List AllocEvent) : List Nat → List AllocEvent
  | [] => evs
  | i :: rest =>
    if i ∈ alloc then allocPrivates wa alloc evs rest
    else allocPrivates wa (alloc ++ [i])
      (evs ++ [⟨.witness, i, (wa.bind (alookup i)).getD 0⟩]) rest

/-- The allocation phase of Groth16CircuitAdapter::generate_constraints:
the constant-one public input, then the named public inputs in declared
order, then the remaining indices as private witnesses. -/
def generate_allocations (sys : R1CSSystem) (wa : Option (List (Nat × Fr))) :
    Except SynthErr (List AllocEvent) :=
  match alookup oneName sys.var_map with
  | none => .error .assignmentMissing
  | some oneOrig =>
    match allocPublics sys.var_map wa sys.public_input_names
        [oneOrig] [⟨.input, oneOrig, 1⟩] with
    | .error e => .error e
    | .ok r => .ok (allocPrivates wa r.1 r.2 (List.range sys.num_variables))

/-- Shape of an allocation trace: the kinds and original indices, forgetting
the values.  The public/private split of the host SNARK is a function of
this shape alone. -/
def allocShape (evs : List AllocEvent) : List (AllocKind × Nat) :=
  evs.map (fun e => (e.kind, e.origIdx))

/-- Concrete transfer circuit used as the witness input for C8. -/
def cw8 : Circuit :=
  { name := "w8"
    inputs := [("alice", 10), ("bob", 20)]
    outputs := []
    gates := []
    sender := "alice"
    receiver := "bob"
    transfer_amount := 3 }

/-- The S1 add-chain circuit of the specification, used as a witness input
for several claims. -/
def cw1 : Circuit :=
  { name := "test_add"
    inputs := [("a", 10), ("b", 20)]
    outputs := []
    gates := [Gate.Add ("a") ("b") ("c") none,
              Gate.Add ("c") transferName ("d") none]
    sender := "alice"
    receiver := "bob"
    transfer_amount := 5 }

/-- The index-keyed witness computed for cw1. -/
def ws1 : List (Nat × Fr) :=
  [(2, i32_to_fr 10), (3, i32_to_fr 20), (0, 1), (1, i32_to_fr 5),
   (4, i32_to_fr 30), (5, i32_to_fr 35)]

/-- The wire valuation left by evaluating the gates of cw1. -/
def wires1 : List (Name × Fr) :=
  [("a", i32_to_fr 10), ("b", i32_to_fr 20), (oneName, 1),
   (transferName, i32_to_fr 5), ("c", i32_to_fr 30), ("d", i32_to_fr 35)]

/-- Concrete transfer circuit whose validated update overflows the i32
sender balance, the counterexample input for C8. -/
def cw8o : Circuit :=
  { name := "w8o"
    inputs := [("al", 2147483647)]
    outputs := []
    gates := []
    sender := "al"
    receiver := "bo"
    transfer_amount := -1 }

/-- Circuit whose Add gate repeats one operand; the counterexample input for
C1: the HashMap collect merges the two unit coefficients of the repeated
operand, so the emitted row asserts a = c while the witness sets c = 2a. -/
def cwdup : Circuit :=
  { name := "dup"
    inputs := [("a", 1)]
    outputs := []
    gates := [Gate.Add ("a") ("a") ("c") none]
    sender := "s"
    receiver := "r"
    transfer_amount := 0 }

/-- The index-keyed witness computed for cwdup. -/
def wdup : List (Nat × Fr) :=
  [(2, i32_to_fr 1), (0, 1), (1, i32_to_fr 0), (3, i32_to_fr 2)]

/-- Concrete circuit with an Eq gate over unequal inputs, used as the witness
input for C6. -/
def cw6a : Circuit :=
  { name := "w6a"
    inputs := [("a", 3), ("b", 4)]
    outputs := []
    gates := [Gate.Eq ("a") ("b") ("d")]
    sender := "s"
    receiver := "r"
    transfer_amount := 0 }

/-- Concrete circuit with an Xor gate over a non-boolean input, used as the
witness input for C6. -/
def cw6b : Circuit :=
  { name := "w6b"
    inputs := [("a", 2), ("b", 0)]
    outputs := []
    gates := [Gate.Xor ("a") ("b") ("c")]
    sender := "s"
    receiver := "r"
    transfer_amount := 0 }

/-- Concrete circuit whose Const gate overwrites the constant-one wire, the
counterexample input for C7. -/
def cw7 : Circuit :=
  { name := "w7"
    inputs := []
    outputs := []
    gates := [Gate.Const ("1") 3]
    sender := "s"
    receiver := "r"
    transfer_amount := 0 }

/-- Concrete circuit with sender equal to receiver, used as the witness input
for C10. -/
def cw10 : Circuit :=
  { name := "w10"
    inputs := [("al", 5)]
    outputs := []
    gates := []
    sender := "al"
    receiver := "al"
    transfer_amount := 2 }

/-- First of two circuits that differ only in the representation order of
the inputs map, used as the witness input for C2. -/
def cw2a : Circuit :=
  { name := "w2"
    inputs := [("a", 1), ("b", 2)]
    outputs := []
    gates := [Gate.Add "a" "b" "c" none]
    sender := "a"
    receiver := "b"
    transfer_amount := 1 }

/-- Second representation of the same circuit as cw2a. -/
def cw2b : Circuit :=
  { cw2a with inputs := [("b", 2), ("a", 1)] }

/-- A var_map is well formed for a next free index when its indices are
exactly 0, 1, ..., next - 1 in insertion order. -/
def VmOk (vm : List (Name × Nat)) (next : Nat) : Prop :=
  vm.map Prod.snd = List.range next

/-- One var_map extends another by appending new bindings at the end. -/
def VmExt (vm vm2 : List (Name × Nat)) : Prop :=
  ∃ ext, vm2 = vm ++ ext

/-- Bound on every index referenced by the three rows of a constraint. -/
def ConBound (bound : Nat) (con : R1CSConstraint) : Prop :=
  (∀ p ∈ con.a, p.1 < bound) ∧ (∀ p ∈ con.b, p.1 < bound) ∧ (∀ p ∈ con.c, p.1 < bound)

instance exceptDecEq {ε α : Type} [DecidableEq ε] [DecidableEq α] :
    DecidableEq (Except ε α)
  | .error a, .error b =>
    if h : a = b then .isTrue (by rw [h])
    else .isFalse (by intro hc; cases hc; exact h rfl)
  | .error _, .ok _ => .isFalse (by intro hc; cases hc)
  | .ok _, .error _ => .isFalse (by intro hc; cases hc)
  | .ok a, .ok b =>
    if h : a = b then .isTrue (by rw [h])
    else .isFalse (by intro hc; cases hc; exact h rfl)

section MapLemmas

variable {κ α : Type} [DecidableEq κ]

theorem alookup_append (k : κ) (l1 l2 : List (κ × α)) :
    alookup k (l1 ++ l2) =
      match alookup k l1 with
      | some v => some v
      | none => alookup k l2 := by
  induction l1 with
  | nil => simp [alookup]
  | cons p rest ih =>
    obtain ⟨k2, v2⟩ := p
    by_cases h : k2 = k <;> simp [alookup, h, ih]

theorem alookup_append_of_some {k : κ} {l1 : List (κ × α)} {v : α}
    (h : alookup k l1 = some v) (l2 : List (κ × α)) :
    alookup k (l1 ++ l2) = some v := by
  rw [alookup_append, h]

theorem alookup_append_of_none {k : κ} {l1 : List (κ × α)}
    (h : alookup k l1 = none) (l2 : List (κ × α)) :
    alookup k (l1 ++ l2) = alookup k l2 := by
  rw [alookup_append, h]

theorem alookup_aupsert_self (k : κ) (v : α) (m : List (κ × α)) :
    alookup k (aupsert k v m) = some v := by
  induction m with
  | nil => simp [aupsert, alookup]
  | cons p rest ih =>
    obtain ⟨k2, v2⟩ := p
    by_cases h : k2 = k <;> simp [aupsert, alookup, h, ih]

theorem alookup_aupsert_ne {k k2 : κ} (hne : k2 ≠ k) (v : α) (m : List (κ × α)) :
    alookup k (aupsert k2 v m) = alookup k m := by
  induction m with
  | nil => simp [aupsert, alookup, hne]
  | cons p rest ih =>
    obtain ⟨k3, v3⟩ := p
    by_cases h : k3 = k2
    · subst h
      simp [aupsert, alookup, hne]
    · by_cases h2 : k3 = k
      · subst h2
        have hkk : ¬(k3 = k2) := h
        simp [aupsert, alookup, hkk]
      · simp [aupsert, alookup, h, h2, ih]

theorem mem_fst_aupsert {n k : κ} {v : α} {m : List (κ × α)} :
    n ∈ (aupsert k v m).map Prod.fst ↔ n = k ∨ n ∈ m.map Prod.fst := by
  induction m with
  | nil => simp [aupsert]
  | cons p rest ih =>
    obtain ⟨k2, v2⟩ := p
    by_cases h : k2 = k
    · subst h
      simp [aupsert]
    · simp [aupsert, h, ih]
      tauto

theorem nodup_fst_aupsert {m : List (κ × α)} (k : κ) (v : α)
    (h : (m.map Prod.fst).Nodup) : ((aupsert k v m).map Prod.fst).Nodup := by
  induction m with
  | nil => simp [aupsert]
  | cons p rest ih =>
    obtain ⟨k2, v2⟩ := p
    simp only [List.map_cons, List.nodup_cons] at h
    by_cases he : k2 = k
    · subst he
      simpa [aupsert] using h
    · simp only [aupsert, if_neg he, List.map_cons, List.nodup_cons]
      refine ⟨?_, ih h.2⟩
      intro hmem
      rcases mem_fst_aupsert.1 hmem with h1 | h1
      · exact he h1
      · exact h.1 h1

theorem alookup_isSome_iff {k : κ} {m : List (κ × α)} :
    (alookup k m).isSome ↔ k ∈ m.map Prod.fst := by
  induction m with
  | nil => simp [alookup]
  | cons p rest ih =>
    obtain ⟨k2, v2⟩ := p
    by_cases h : k2 = k <;> simp [alookup, h, ih]
    exact fun he => (h he.symm).elim

theorem alookup_eq_none_iff {k : κ} {m : List (κ × α)} :
    alookup k m = none ↔ k ∉ m.map Prod.fst := by
  rw [← alookup_isSome_iff]
  cases alookup k m <;> simp

theorem alookup_mem {k : κ} {v : α} {m : List (κ × α)} (h : alookup k m = some v) :
    (k, v) ∈ m := by
  induction m with
  | nil => simp [alookup] at h
  | cons p rest ih =>
    obtain ⟨k2, v2⟩ := p
    by_cases he : k2 = k
    · subst he
      simp [alookup] at h
      simp [h]
    · simp [alookup, he] at h
      exact List.mem_cons_of_mem _ (ih h)

theorem mem_aupsert {p : κ × α} {k : κ} {v : α} {m : List (κ × α)}
    (h : p ∈ aupsert k v m) : p.1 = k ∨ p ∈ m := by
  induction m with
  | nil => simp [aupsert] at h; simp [h]
  | cons q rest ih =>
    obtain ⟨k2, v2⟩ := q
    by_cases he : k2 = k
    · subst he
      simp [aupsert] at h
      rcases h with h | h
      · simp [h]
      · exact Or.inr (List.mem_cons_of_mem _ h)
    · simp only [aupsert, if_neg he, List.mem_cons] at h
      rcases h with h | h
      · exact Or.inr (by simp [h])
      · rcases ih h with h1 | h1
        · exact Or.inl h1
        · exact Or.inr (List.mem_cons_of_mem _ h1)

end MapLemmas

theorem alookup_aadjust_self {f : Int → Int} {m : List (Name × Int)} {n : Name} {v : Int}
    (h : alookup n m = some v) : alookup n (aadjust n f m) = some (f v) := by
  induction m with
  | nil => simp [alookup] at h
  | cons p rest ih =>
    obtain ⟨k2, v2⟩ := p
    by_cases he : k2 = n
    · subst he
      simp [alookup] at h
      simp [aadjust, alookup, h]
    · simp [alookup, he] at h
      simp [aadjust, alookup, he, ih h]

theorem alookup_aadjust_ne {f : Int → Int} {m : List (Name × Int)} {k n : Name}
    (hne : k ≠ n) : alookup n (aadjust k f m) = alookup n m := by
  induction m with
  | nil => simp [aadjust]
  | cons p rest ih =>
    obtain ⟨k2, v2⟩ := p
    by_cases he : k2 = k
    · subst he
      simp [aadjust, alookup, hne, ih]
    · by_cases h2 : k2 = n
      · subst h2
        have hkk : ¬(k2 = k) := he
        simp [aadjust, alookup, hkk]
      · simp [aadjust, alookup, he, h2, ih]

section StringFacts

theorem balanceName_data (s : Name) :
    (balanceName s).data = s.data ++ balSuffix.data := by
  simp [balanceName, String.data_append]

theorem balanceName_ne_one (s : Name) : balanceName s ≠ oneName := by
  intro h
  have hd := congrArg String.data h
  rw [balanceName_data] at hd
  have hl := congrArg List.length hd
  rw [List.length_append] at hl
  have h1 : balSuffix.data.length = 16 := by decide
  have h2 : oneName.data.length = 1 := by decide
  omega

theorem balanceName_ne_transfer (s : Name) : balanceName s ≠ transferName := by
  intro h
  have hd := congrArg String.data h
  rw [balanceName_data] at hd
  have hsplit : transferName.data = "transf".data ++ "er_amount_public".data := by decide
  rw [hsplit] at hd
  have hlen : balSuffix.data.length = ("er_amount_public").data.length := by decide
  have := (List.append_inj' hd hlen).2
  revert this
  decide

theorem balanceName_inj {s t : Name} (h : balanceName s = balanceName t) : s = t := by
  have hd := congrArg String.data h
  rw [balanceName_data, balanceName_data] at hd
  have := List.append_inj_left' hd rfl
  exact String.ext this

theorem transferName_ne_one : transferName ≠ oneName := by decide

theorem xorProd_data (a b : Name) :
    (xorProd a b).data = a.data ++ xorSep.data ++ b.data := by
  simp [xorProd, String.data_append]

theorem xorProd_ne_left (a b : Name) : xorProd a b ≠ a := by
  intro h
  have hd := congrArg String.data h
  rw [xorProd_data] at hd
  have hl := congrArg List.length hd
  rw [List.length_append, List.length_append] at hl
  have h1 : xorSep.data.length = 10 := by decide
  omega

theorem xorProd_ne_right (a b : Name) : xorProd a b ≠ b := by
  intro h
  have hd := congrArg String.data h
  rw [xorProd_data] at hd
  have hl := congrArg List.length hd
  rw [List.length_append, List.length_append] at hl
  have h1 : xorSep.data.length = 10 := by decide
  omega

end StringFacts

section VmInfra

theorem vmExt_refl (vm : List (Name × Nat)) : VmExt vm vm := ⟨[], by simp⟩

theorem vmExt_trans {v1 v2 v3 : List (Name × Nat)} (h1 : VmExt v1 v2) (h2 : VmExt v2 v3) :
    VmExt v1 v3 := by
  obtain ⟨e1, he1⟩ := h1
  obtain ⟨e2, he2⟩ := h2
  exact ⟨e1 ++ e2, by simp [he2, he1]⟩

theorem vmExt_lookup {v1 v2 : List (Name × Nat)} {k : Name} {i : Nat}
    (h : VmExt v1 v2) (hl : alookup k v1 = some i) : alookup k v2 = some i := by
  obtain ⟨e, he⟩ := h
  rw [he]
  exact alookup_append_of_some hl e

theorem vmOk_lt {vm : List (Name × Nat)} {next : Nat} {n : Name} {i : Nat}
    (h : VmOk vm next) (hl : alookup n vm = some i) : i < next := by
  have hm : i ∈ vm.map Prod.snd := List.mem_map.2 ⟨(n, i), alookup_mem hl, rfl⟩
  rw [h] at hm
  exact List.mem_range.1 hm

theorem vmOk_inj {vm : List (Name × Nat)} {next : Nat} {p q : Name × Nat}
    (h : VmOk vm next) (hp : p ∈ vm) (hq : q ∈ vm) (he : p.2 = q.2) : p = q := by
  have hn : (vm.map Prod.snd).Nodup := by
    rw [h]
    exact List.nodup_range next
  exact List.inj_on_of_nodup_map hn hp hq he

theorem vmOk_lookup_inj {vm : List (Name × Nat)} {next : Nat} {n1 n2 : Name} {i : Nat}
    (h : VmOk vm next) (h1 : alookup n1 vm = some i) (h2 : alookup n2 vm = some i) :
    n1 = n2 := by
  have := vmOk_inj h (alookup_mem h1) (alookup_mem h2) rfl
  exact congrArg Prod.fst this

/-- Everything preserved by one get_index allocation. -/
theorem get_index_step (n : Name) (vm : List (Name × Nat)) (next : Nat)
    (h : VmOk vm next) :
    VmOk (get_index n vm next).2.1 (get_index n vm next).2.2 ∧
    VmExt vm (get_index n vm next).2.1 ∧
    next ≤ (get_index n vm next).2.2 ∧
    (get_index n vm next).1 < (get_index n vm next).2.2 ∧
    alookup n (get_index n vm next).2.1 = some (get_index n vm next).1 := by
  cases hl : alookup n vm with
  | some i =>
    have hg : get_index n vm next = (i, vm, next) := by simp [get_index, hl]
    rw [hg]
    exact ⟨h, vmExt_refl vm, le_refl next, vmOk_lt h hl, hl⟩
  | none =>
    have hg : get_index n vm next = (next, vm ++ [(n, next)], next + 1) := by
      simp [get_index, hl]
    rw [hg]
    refine ⟨?_, ⟨[(n, next)], rfl⟩, Nat.le_succ next, Nat.lt_succ_self next, ?_⟩
    · unfold VmOk at h ⊢
      rw [List.map_append, h, List.range_succ]
      rfl
    · rw [alookup_append_of_none hl]
      simp [alookup]

theorem oneIdx_of_lookup {vm : List (Name × Nat)} (h : alookup oneName vm = some 0) :
    oneIdx vm = 0 := by
  simp [oneIdx, h]

theorem collectPairs_fst_sub {l : List (Nat × Fr)} {p : Nat × Fr}
    (h : p ∈ collectPairs l) : p.1 ∈ l.map Prod.fst := by
  have main : ∀ (l2 : List (Nat × Fr)) (acc : List (Nat × Fr)),
      p ∈ l2.foldl (fun m q => aupsert q.1 q.2 m) acc →
      p.1 ∈ l2.map Prod.fst ∨ p ∈ acc := by
    intro l2
    induction l2 with
    | nil => intro acc hx; exact Or.inr hx
    | cons q rest ih =>
      intro acc hx
      rcases ih _ hx with h1 | h1
      · simp [h1]
      · rcases mem_aupsert h1 with h2 | h2
        · simp [h2]
        · exact Or.inr h2
  rcases main l [] h with h1 | h1
  · exact h1
  · simp at h1

theorem collect_bound {bound : Nat} {l : List (Nat × Fr)}
    (h : ∀ i ∈ l.map Prod.fst, i < bound) :
    ∀ p ∈ collectPairs l, p.1 < bound :=
  fun _ hp => h _ (collectPairs_fst_sub hp)

/-- Everything preserved by compiling one gate. -/
theorem compileGate_inv (g : Gate) {vm : List (Name × Nat)} {next : Nat}
    (h : VmOk vm next) (hone : alookup oneName vm = some 0) :
    VmOk (compileGate vm next g).1 (compileGate vm next g).2.1 ∧
    VmExt vm (compileGate vm next g).1 ∧
    next ≤ (compileGate vm next g).2.1 ∧
    alookup oneName (compileGate vm next g).1 = some 0 ∧
    ∀ con ∈ (compileGate vm next g).2.2, ConBound (compileGate vm next g).2.1 con := by
  have hpos : 0 < next := vmOk_lt h hone
  cases g with
  | Add a b c m =>
    simp only [compileGate]
    obtain ⟨h1a, h1b, h1c, h1d, h1e⟩ := get_index_step a _ _ h
    obtain ⟨h2a, h2b, h2c, h2d, h2e⟩ := get_index_step b _ _ h1a
    obtain ⟨h3a, h3b, h3c, h3d, h3e⟩ := get_index_step c _ _ h2a
    have hOne := vmExt_lookup h3b (vmExt_lookup h2b (vmExt_lookup h1b hone))
    refine ⟨h3a, vmExt_trans (vmExt_trans h1b h2b) h3b, by omega, hOne, ?_⟩
    intro con hcon
    simp at hcon
    subst hcon
    refine ⟨collect_bound ?_, collect_bound ?_, collect_bound ?_⟩ <;>
      (intro i hi; simp [oneIdx_of_lookup hOne] at hi) <;> omega
  | Mul a b c m =>
    simp only [compileGate]
    obtain ⟨h1a, h1b, h1c, h1d, h1e⟩ := get_index_step a _ _ h
    obtain ⟨h2a, h2b, h2c, h2d, h2e⟩ := get_index_step b _ _ h1a
    obtain ⟨h3a, h3b, h3c, h3d, h3e⟩ := get_index_step c _ _ h2a
    have hOne := vmExt_lookup h3b (vmExt_lookup h2b (vmExt_lookup h1b hone))
    refine ⟨h3a, vmExt_trans (vmExt_trans h1b h2b) h3b, by omega, hOne, ?_⟩
    intro con hcon
    simp at hcon
    subst hcon
    refine ⟨collect_bound ?_, collect_bound ?_, collect_bound ?_⟩ <;>
      (intro i hi; simp [oneIdx_of_lookup hOne] at hi) <;> omega
  | Sub a b c m =>
    simp only [compileGate]
    obtain ⟨h1a, h1b, h1c, h1d, h1e⟩ := get_index_step a _ _ h
    obtain ⟨h2a, h2b, h2c, h2d, h2e⟩ := get_index_step b _ _ h1a
    obtain ⟨h3a, h3b, h3c, h3d, h3e⟩ := get_index_step c _ _ h2a
    have hOne := vmExt_lookup h3b (vmExt_lookup h2b (vmExt_lookup h1b hone))
    refine ⟨h3a, vmExt_trans (vmExt_trans h1b h2b) h3b, by omega, hOne, ?_⟩
    intro con hcon
    simp at hcon
    subst hcon
    refine ⟨collect_bound ?_, collect_bound ?_, collect_bound ?_⟩ <;>
      (intro i hi; simp [oneIdx_of_lookup hOne] at hi) <;> omega
  | Eq a b outp =>
    simp only [compileGate]
    obtain ⟨h1a, h1b, h1c, h1d, h1e⟩ := get_index_step a _ _ h
    obtain ⟨h2a, h2b, h2c, h2d, h2e⟩ := get_index_step b _ _ h1a
    obtain ⟨h3a, h3b, h3c, h3d, h3e⟩ := get_index_step outp _ _ h2a
    have hOne := vmExt_lookup h3b (vmExt_lookup h2b (vmExt_lookup h1b hone))
    refine ⟨h3a, vmExt_trans (vmExt_trans h1b h2b) h3b, by omega, hOne, ?_⟩
    intro con hcon
    simp at hcon
    rcases hcon with hcon | hcon <;> subst hcon <;>
      refine ⟨collect_bound ?_, collect_bound ?_, collect_bound ?_⟩ <;>
      (intro i hi; simp [oneIdx_of_lookup hOne] at hi) <;> omega
  | Hash inp outp =>
    simp only [compileGate]
    obtain ⟨h1a, h1b, h1c, h1d, h1e⟩ := get_index_step inp _ _ h
    obtain ⟨h2a, h2b, h2c, h2d, h2e⟩ := get_index_step outp _ _ h1a
    have hOne := vmExt_lookup h2b (vmExt_lookup h1b hone)
    refine ⟨h2a, vmExt_trans h1b h2b, by omega, hOne, ?_⟩
    intro con hcon
    simp at hcon
    subst hcon
    refine ⟨collect_bound ?_, collect_bound ?_, collect_bound ?_⟩ <;>
      (intro i hi; simp [oneIdx_of_lookup hOne] at hi) <;> omega
  | Const nm v =>
    simp only [compileGate]
    obtain ⟨h1a, h1b, h1c, h1d, h1e⟩ := get_index_step nm _ _ h
    have hOne := vmExt_lookup h1b hone
    refine ⟨h1a, h1b, by omega, hOne, ?_⟩
    intro con hcon
    simp at hcon
    subst hcon
    refine ⟨collect_bound ?_, collect_bound ?_, collect_bound ?_⟩ <;>
      (intro i hi; simp [oneIdx_of_lookup hOne] at hi) <;> omega
  | Xor a b c =>
    simp only [compileGate]
    obtain ⟨h1a, h1b, h1c, h1d, h1e⟩ := get_index_step a _ _ h
    obtain ⟨h2a, h2b, h2c, h2d, h2e⟩ := get_index_step b _ _ h1a
    obtain ⟨h3a, h3b, h3c, h3d, h3e⟩ := get_index_step (xorProd a b) _ _ h2a
    obtain ⟨h4a, h4b, h4c, h4d, h4e⟩ := get_index_step c _ _ h3a
    have hOne := vmExt_lookup h4b (vmExt_lookup h3b (vmExt_lookup h2b (vmExt_lookup h1b hone)))
    refine ⟨h4a, vmExt_trans (vmExt_trans (vmExt_trans h1b h2b) h3b) h4b, by omega, hOne, ?_⟩
    intro con hcon
    simp at hcon
    rcases hcon with hcon | hcon | hcon | hcon <;> subst hcon <;>
      refine ⟨collect_bound ?_, collect_bound ?_, collect_bound ?_⟩ <;>
      (intro i hi; simp [oneIdx_of_lookup hOne] at hi) <;> omega

/-- Everything preserved by the gate loop of the compiler. -/
theorem compileGates_inv (gs : List Gate) : ∀ (vm : List (Name × Nat)) (next : Nat),
    VmOk vm next → alookup oneName vm = some 0 →
    VmOk (compileGates vm next gs).1 (compileGates vm next gs).2.1 ∧
    VmExt vm (compileGates vm next gs).1 ∧
    next ≤ (compileGates vm next gs).2.1 ∧
    alookup oneName (compileGates vm next gs).1 = some 0 ∧
    ∀ con ∈ (compileGates vm next gs).2.2, ConBound (compileGates vm next gs).2.1 con := by
  induction gs with
  | nil =>
    intro vm next h hone
    simp only [compileGates]
    exact ⟨h, vmExt_refl vm, le_refl next, hone, by simp⟩
  | cons g rest ih =>
    intro vm next h hone
    simp only [compileGates]
    obtain ⟨hg1, hg2, hg3, hg4, hg5⟩ := compileGate_inv g h hone
    obtain ⟨hr1, hr2, hr3, hr4, hr5⟩ := ih _ _ hg1 hg4
    refine ⟨hr1, vmExt_trans hg2 hr2, by omega, hr4, ?_⟩
    intro con hcon
    rw [List.mem_append] at hcon
    rcases hcon with hcon | hcon
    · obtain ⟨ba, bb, bc⟩ := hg5 con hcon
      exact ⟨fun p hp => lt_of_lt_of_le (ba p hp) hr3,
             fun p hp => lt_of_lt_of_le (bb p hp) hr3,
             fun p hp => lt_of_lt_of_le (bc p hp) hr3⟩
    · exact hr5 con hcon

/-- Everything preserved by one public-input preamble step. -/
theorem pubStep_inv (nm : Name) (v : Int) (st : PreState)
    (h : VmOk st.vm st.next) (hone : alookup oneName st.vm = some 0) :
    VmOk (pubStep nm v st).vm (pubStep nm v st).next ∧
    VmExt st.vm (pubStep nm v st).vm ∧
    st.next ≤ (pubStep nm v st).next ∧
    alookup oneName (pubStep nm v st).vm = some 0 ∧
    (pubStep nm v st).pubs = st.pubs ++ [nm] ∧
    (pubStep nm v st).cons.length = st.cons.length + 1 ∧
    ∀ con ∈ (pubStep nm v st).cons,
      con ∈ st.cons ∨ ConBound (pubStep nm v st).next con := by
  have hpos : 0 < st.next := vmOk_lt h hone
  obtain ⟨h1a, h1b, h1c, h1d, h1e⟩ := get_index_step nm st.vm st.next h
  have hOne := vmExt_lookup h1b hone
  simp only [pubStep]
  refine ⟨h1a, h1b, h1c, hOne, by simp, by simp, ?_⟩
  intro con hcon
  rw [List.mem_append] at hcon
  rcases hcon with hcon | hcon
  · exact Or.inl hcon
  · rw [List.mem_singleton] at hcon
    subst hcon
    refine Or.inr ⟨collect_bound ?_, collect_bound ?_, collect_bound ?_⟩ <;>
      (intro i hi; simp [oneIdx_of_lookup hOne] at hi) <;> omega

/-- Everything established by the preamble of the compiler. -/
theorem preambleState_inv (c : Circuit) :
    VmOk (preambleState c).vm (preambleState c).next ∧
    alookup oneName (preambleState c).vm = some 0 ∧
    ∀ con ∈ (preambleState c).cons, ConBound (preambleState c).next con := by
  have h0 : VmOk [(oneName, 0)] 1 := by
    unfold VmOk
    rfl
  have hone0 : alookup oneName [(oneName, (0 : Nat))] = some 0 := by simp [alookup]
  unfold preambleState
  cases hs : alookup c.sender c.inputs with
  | none =>
    cases hr : alookup c.receiver c.inputs with
    | none =>
      obtain ⟨a1, a2, a3, a4, _, _, a7⟩ := pubStep_inv transferName c.transfer_amount ⟨[(oneName, 0)], 1, [], []⟩ h0 hone0
      refine ⟨a1, a4, ?_⟩
      intro con hcon
      rcases a7 con hcon with h | h
      · simp at h
      · exact h
    | some vr =>
      obtain ⟨a1, a2, a3, a4, _, _, a7⟩ := pubStep_inv (balanceName c.receiver) vr ⟨[(oneName, 0)], 1, [], []⟩ h0 hone0
      obtain ⟨b1, b2, b3, b4, _, _, b7⟩ := pubStep_inv transferName c.transfer_amount _ a1 a4
      refine ⟨b1, b4, ?_⟩
      intro con hcon
      rcases b7 con hcon with h | h
      · rcases a7 con h with h2 | h2
        · simp at h2
        · obtain ⟨ba, bb, bc⟩ := h2
          exact ⟨fun p hp => lt_of_lt_of_le (ba p hp) b3,
                 fun p hp => lt_of_lt_of_le (bb p hp) b3,
                 fun p hp => lt_of_lt_of_le (bc p hp) b3⟩
      · exact h
  | some vs =>
    obtain ⟨a1, a2, a3, a4, _, _, a7⟩ := pubStep_inv (balanceName c.sender) vs ⟨[(oneName, 0)], 1, [], []⟩ h0 hone0
    cases hr : alookup c.receiver c.inputs with
    | none =>
      obtain ⟨b1, b2, b3, b4, _, _, b7⟩ := pubStep_inv transferName c.transfer_amount _ a1 a4
      refine ⟨b1, b4, ?_⟩
      intro con hcon
      rcases b7 con hcon with h | h
      · rcases a7 con h with h2 | h2
        · simp at h2
        · obtain ⟨ba, bb, bc⟩ := h2
          exact ⟨fun p hp => lt_of_lt_of_le (ba p hp) b3,
                 fun p hp => lt_of_lt_of_le (bb p hp) b3,
                 fun p hp => lt_of_lt_of_le (bc p hp) b3⟩
      · exact h
    | some vr =>
      obtain ⟨b1, b2, b3, b4, _, _, b7⟩ := pubStep_inv (balanceName c.receiver) vr _ a1 a4
      obtain ⟨c1, c2, c3, c4, _, _, c7⟩ := pubStep_inv transferName c.transfer_amount _ b1 b4
      refine ⟨c1, c4, ?_⟩
      intro con hcon
      rcases c7 con hcon with h | h
      · rcases b7 con h with h2 | h2
        · rcases a7 con h2 with h3 | h3
          · simp at h3
          · obtain ⟨ba, bb, bc⟩ := h3
            exact ⟨fun p hp => lt_of_lt_of_le (ba p hp) (le_trans b3 c3),
                   fun p hp => lt_of_lt_of_le (bb p hp) (le_trans b3 c3),
                   fun p hp => lt_of_lt_of_le (bc p hp) (le_trans b3 c3)⟩
        · obtain ⟨ba, bb, bc⟩ := h2
          exact ⟨fun p hp => lt_of_lt_of_le (ba p hp) c3,
                 fun p hp => lt_of_lt_of_le (bb p hp) c3,
                 fun p hp => lt_of_lt_of_le (bc p hp) c3⟩
      · exact h

end VmInfra

/-- C3: after compilation the name 1 maps to index 0, the var_map indices are
exactly 0, ..., num_variables - 1, every index referenced by a constraint row
is below num_variables, and num_public_inputs counts the constant one plus
the named public inputs. -/
theorem C3_index_invariants (c : Circuit) :
    alookup oneName (to_r1cs_system c).var_map = some 0 ∧
    (to_r1cs_system c).var_map.map Prod.snd = List.range (to_r1cs_system c).num_variables ∧
    (∀ con ∈ (to_r1cs_system c).raw_constraints, ConBound (to_r1cs_system c).num_variables con) ∧
    (to_r1cs_system c).num_public_inputs = 1 + (to_r1cs_system c).public_input_names.length := by
  obtain ⟨p1, p2, p3⟩ := preambleState_inv c
  obtain ⟨g1, g2, g3, g4, g5⟩ := compileGates_inv c.gates _ _ p1 p2
  refine ⟨g4, g1, ?_, rfl⟩
  intro con hcon
  have hcon2 : con ∈ (preambleState c).cons ∨
      con ∈ (compileGates (preambleState c).vm (preambleState c).next c.gates).2.2 := by
    simpa [to_r1cs_system] using hcon
  rcases hcon2 with h | h
  · obtain ⟨ba, bb, bc⟩ := p3 con h
    exact ⟨fun p hp => lt_of_lt_of_le (ba p hp) g3,
           fun p hp => lt_of_lt_of_le (bb p hp) g3,
           fun p hp => lt_of_lt_of_le (bc p hp) g3⟩
  · exact g5 con h

/-- C2: compilation is a pure function of the circuit fields and of the
lookup semantics of the inputs map; two runs on the same Circuit IR, in
particular on any two representations of the same inputs map, produce the
same var_map, public_input_names and constraint sequence. -/
theorem C2_deterministic (c1 c2 : Circuit)
    (hg : c1.gates = c2.gates) (hs : c1.sender = c2.sender)
    (hr : c1.receiver = c2.receiver) (ht : c1.transfer_amount = c2.transfer_amount)
    (hin : ∀ k, alookup k c1.inputs = alookup k c2.inputs) :
    to_r1cs_system c1 = to_r1cs_system c2 := by
  unfold to_r1cs_system preambleState
  rw [hg, hs, hr, ht, hin c2.sender, hin c2.receiver]

/-- Witness for C2 on two list representations of the same inputs map. -/
theorem C2_witness :
    cw2a.inputs ≠ cw2b.inputs ∧ to_r1cs_system cw2a = to_r1cs_system cw2b := by
  refine ⟨by decide, C2_deterministic cw2a cw2b rfl rfl rfl rfl ?_⟩
  intro k
  by_cases h1 : ("a" : String) = k
  · by_cases h2 : ("b" : String) = k
    · exact absurd (h1.trans h2.symm) (by decide)
    · simp [cw2a, cw2b, alookup, h1, h2]
  · by_cases h2 : ("b" : String) = k
    · simp [cw2a, cw2b, alookup, h1, h2]
    · simp [cw2a, cw2b, alookup, h1, h2]

section PreambleFacts

theorem to_r1cs_raw (c : Circuit) :
    (to_r1cs_system c).raw_constraints =
      (preambleState c).cons ++
        (compileGates (preambleState c).vm (preambleState c).next c.gates).2.2 := rfl

theorem to_r1cs_pubs (c : Circuit) :
    (to_r1cs_system c).public_input_names = (preambleState c).pubs := rfl

theorem to_r1cs_vm (c : Circuit) :
    (to_r1cs_system c).var_map =
      (compileGates (preambleState c).vm (preambleState c).next c.gates).1 := rfl

theorem to_r1cs_numpub (c : Circuit) :
    (to_r1cs_system c).num_public_inputs = 1 + (preambleState c).pubs.length := rfl

/-- Explicit effect of one preamble step: the pushed constraint is the pin
constraint of the allocated index, and the name is looked up at that index
afterwards. -/
theorem pubStep_spec (nm : Name) (v : Int) (st : PreState)
    (h : VmOk st.vm st.next) (hone : alookup oneName st.vm = some 0) :
    (pubStep nm v st).cons =
      st.cons ++ [pinConstraint (get_index nm st.vm st.next).1 v] ∧
    alookup nm (pubStep nm v st).vm = some (get_index nm st.vm st.next).1 ∧
    (pubStep nm v st).pubs = st.pubs ++ [nm] := by
  obtain ⟨h1a, h1b, h1c, h1d, h1e⟩ := get_index_step nm st.vm st.next h
  have hOne := vmExt_lookup h1b hone
  refine ⟨?_, h1e, rfl⟩
  simp only [pubStep, oneIdx_of_lookup hOne]
  rfl

/-- A name bound by the preamble keeps its index in the final var_map. -/
theorem lookup_final {c : Circuit} {n : Name} {i : Nat}
    (h : alookup n (preambleState c).vm = some i) :
    alookup n (to_r1cs_system c).var_map = some i := by
  obtain ⟨p1, p2, _⟩ := preambleState_inv c
  obtain ⟨_, g2, _, _, _⟩ := compileGates_inv c.gates _ _ p1 p2
  rw [to_r1cs_vm]
  exact vmExt_lookup g2 h

theorem varIdxOf_eq {c : Circuit} {n : Name} {i : Nat}
    (h : alookup n (to_r1cs_system c).var_map = some i) : varIdxOf c n = i := by
  simp [varIdxOf, h]

end PreambleFacts

/-- C4: the compiler emits the preamble constraints first, in the exact
order sender balance (when declared), receiver balance (when declared),
transfer amount, each pinning the public variable bound in the var_map to
the Circuit IR literal, and public_input_names lists exactly those names in
that order. -/
theorem C4_preamble_order (c : Circuit) :
    (∃ rest, (to_r1cs_system c).raw_constraints = preambleConstraintsSpec c ++ rest) ∧
    (to_r1cs_system c).public_input_names = preambleNamesSpec c := by
  have h0 : VmOk [(oneName, 0)] 1 := by
    unfold VmOk
    rfl
  have hone0 : alookup oneName [(oneName, (0 : Nat))] = some 0 := by simp [alookup]
  cases hs : alookup c.sender c.inputs with
  | none =>
    cases hr : alookup c.receiver c.inputs with
    | none =>
      have hpre : preambleState c =
          pubStep transferName c.transfer_amount ⟨[(oneName, 0)], 1, [], []⟩ := by
        simp only [preambleState, hs, hr]
      obtain ⟨hcT, hlT, hpT⟩ :=
        pubStep_spec transferName c.transfer_amount ⟨[(oneName, 0)], 1, [], []⟩ h0 hone0
      have hlT2 : alookup transferName (preambleState c).vm =
          some (get_index transferName [(oneName, 0)] 1).1 := by
        rw [hpre]
        exact hlT
      have hvT := varIdxOf_eq (lookup_final hlT2)
      constructor
      · refine ⟨(compileGates (preambleState c).vm (preambleState c).next c.gates).2.2, ?_⟩
        rw [to_r1cs_raw, hpre, hcT]
        simp [preambleConstraintsSpec, hs, hr, hvT]
      · rw [to_r1cs_pubs, hpre, hpT]
        simp [preambleNamesSpec, hs, hr]
    | some vr =>
      have hpre : preambleState c =
          pubStep transferName c.transfer_amount
            (pubStep (balanceName c.receiver) vr ⟨[(oneName, 0)], 1, [], []⟩) := by
        simp only [preambleState, hs, hr]
      obtain ⟨a1, a2, a3, a4, a5, a6, a7⟩ :=
        pubStep_inv (balanceName c.receiver) vr ⟨[(oneName, 0)], 1, [], []⟩ h0 hone0
      obtain ⟨hcR, hlR, hpR⟩ :=
        pubStep_spec (balanceName c.receiver) vr ⟨[(oneName, 0)], 1, [], []⟩ h0 hone0
      obtain ⟨b1, b2, b3, b4, b5, b6, b7⟩ :=
        pubStep_inv transferName c.transfer_amount _ a1 a4
      obtain ⟨hcT, hlT, hpT⟩ :=
        pubStep_spec transferName c.transfer_amount _ a1 a4
      have hlR2 : alookup (balanceName c.receiver) (preambleState c).vm =
          some (get_index (balanceName c.receiver) [(oneName, 0)] 1).1 := by
        rw [hpre]
        exact vmExt_lookup b2 hlR
      have hlT2 : alookup transferName (preambleState c).vm = some
          (get_index transferName
            (pubStep (balanceName c.receiver) vr ⟨[(oneName, 0)], 1, [], []⟩).vm
            (pubStep (balanceName c.receiver) vr ⟨[(oneName, 0)], 1, [], []⟩).next).1 := by
        rw [hpre]
        exact hlT
      have hvR := varIdxOf_eq (lookup_final hlR2)
      have hvT := varIdxOf_eq (lookup_final hlT2)
      constructor
      · refine ⟨(compileGates (preambleState c).vm (preambleState c).next c.gates).2.2, ?_⟩
        rw [to_r1cs_raw, hpre, hcT, hcR]
        simp [preambleConstraintsSpec, hs, hr, hvT, hvR]
      · rw [to_r1cs_pubs, hpre, hpT, hpR]
        simp [preambleNamesSpec, hs, hr]
  | some vs =>
    obtain ⟨a1, a2, a3, a4, a5, a6, a7⟩ :=
      pubStep_inv (balanceName c.sender) vs ⟨[(oneName, 0)], 1, [], []⟩ h0 hone0
    obtain ⟨hcS, hlS, hpS⟩ :=
      pubStep_spec (balanceName c.sender) vs ⟨[(oneName, 0)], 1, [], []⟩ h0 hone0
    cases hr : alookup c.receiver c.inputs with
    | none =>
      have hpre : preambleState c =
          pubStep transferName c.transfer_amount
            (pubStep (balanceName c.sender) vs ⟨[(oneName, 0)], 1, [], []⟩) := by
        simp only [preambleState, hs, hr]
      obtain ⟨b1, b2, b3, b4, b5, b6, b7⟩ :=
        pubStep_inv transferName c.transfer_amount _ a1 a4
      obtain ⟨hcT, hlT, hpT⟩ :=
        pubStep_spec transferName c.transfer_amount _ a1 a4
      have hlS2 : alookup (balanceName c.sender) (preambleState c).vm =
          some (get_index (balanceName c.sender) [(oneName, 0)] 1).1 := by
        rw [hpre]
        exact vmExt_lookup b2 hlS
      have hlT2 : alookup transferName (preambleState c).vm = some
          (get_index transferName
            (pubStep (balanceName c.sender) vs ⟨[(oneName, 0)], 1, [], []⟩).vm
            (pubStep (balanceName c.sender) vs ⟨[(oneName, 0)], 1, [], []⟩).next).1 := by
        rw [hpre]
        exact hlT
      have hvS := varIdxOf_eq (lookup_final hlS2)
      have hvT := varIdxOf_eq (lookup_final hlT2)
      constructor
      · refine ⟨(compileGates (preambleState c).vm (preambleState c).next c.gates).2.2, ?_⟩
        rw [to_r1cs_raw, hpre, hcT, hcS]
        simp [preambleConstraintsSpec, hs, hr, hvT, hvS]
      · rw [to_r1cs_pubs, hpre, hpT, hpS]
        simp [preambleNamesSpec, hs, hr]
    | some vr =>
      have hpre : preambleState c =
          pubStep transferName c.transfer_amount
            (pubStep (balanceName c.receiver) vr
              (pubStep (balanceName c.sender) vs ⟨[(oneName, 0)], 1, [], []⟩)) := by
        simp only [preambleState, hs, hr]
      obtain ⟨b1, b2, b3, b4, b5, b6, b7⟩ :=
        pubStep_inv (balanceName c.receiver) vr _ a1 a4
      obtain ⟨hcR, hlR, hpR⟩ :=
        pubStep_spec (balanceName c.receiver) vr _ a1 a4
      obtain ⟨c1, c2, c3, c4, c5, c6, c7⟩ :=
        pubStep_inv transferName c.transfer_amount _ b1 b4
      obtain ⟨hcT, hlT, hpT⟩ :=
        pubStep_spec transferName c.transfer_amount _ b1 b4
      have hlS2 : alookup (balanceName c.sender) (preambleState c).vm =
          some (get_index (balanceName c.sender) [(oneName, 0)] 1).1 := by
        rw [hpre]
        exact vmExt_lookup c2 (vmExt_lookup b2 hlS)
      have hlR2 : alookup (balanceName c.receiver) (preambleState c).vm = some
          (get_index (balanceName c.receiver)
            (pubStep (balanceName c.sender) vs ⟨[(oneName, 0)], 1, [], []⟩).vm
            (pubStep (balanceName c.sender) vs ⟨[(oneName, 0)], 1, [], []⟩).next).1 := by
        rw [hpre]
        exact vmExt_lookup c2 hlR
      have hlT2 : alookup transferName (preambleState c).vm = some
          (get_index transferName
            (pubStep (balanceName c.receiver) vr
              (pubStep (balanceName c.sender) vs ⟨[(oneName, 0)], 1, [], []⟩)).vm
            (pubStep (balanceName c.receiver) vr
              (pubStep (balanceName c.sender) vs ⟨[(oneName, 0)], 1, [], []⟩)).next).1 := by
        rw [hpre]
        exact hlT
      have hvS := varIdxOf_eq (lookup_final hlS2)
      have hvR := varIdxOf_eq (lookup_final hlR2)
      have hvT := varIdxOf_eq (lookup_final hlT2)
      constructor
      · refine ⟨(compileGates (preambleState c).vm (preambleState c).next c.gates).2.2, ?_⟩
        rw [to_r1cs_raw, hpre, hcT, hcR, hcS]
        simp [preambleConstraintsSpec, hs, hr, hvT, hvR, hvS]
      · rw [to_r1cs_pubs, hpre, hpT, hpR, hpS]
        simp [preambleNamesSpec, hs, hr]

/-- Explicit preamble computation when the receiver coincides with the
sender and the shared account is a declared input. -/
theorem preamble_sr (c : Circuit) (hsr : c.receiver = c.sender) {v : Int}
    (hl : alookup c.sender c.inputs = some v) :
    preambleState c =
      ⟨[(oneName, 0), (balanceName c.sender, 1), (transferName, 2)], 3,
       [pinConstraint 1 v, pinConstraint 1 v, pinConstraint 2 c.transfer_amount],
       [balanceName c.sender, balanceName c.sender, transferName]⟩ := by
  have hb1 : ¬(oneName = balanceName c.sender) := fun h => balanceName_ne_one c.sender h.symm
  have hb2 : ¬(oneName = transferName) := fun h => transferName_ne_one h.symm
  have hb3 : ¬(balanceName c.sender = transferName) := balanceName_ne_transfer c.sender
  simp only [preambleState, hsr, hl]
  simp [pubStep, get_index, alookup, oneIdx, hb1, hb2, hb3, pinConstraint, collectPairs, aupsert]

/-- C10: with sender equal to receiver and declared, the balance name enters
public_input_names twice, the var_map binds it once (to index 1), the public
input count exceeds one plus the number of distinct public names by one, and
the pin constraint is emitted twice. -/
theorem C10_duplicate_public_input (c : Circuit) (hsr : c.sender = c.receiver) (v : Int)
    (hl : alookup c.sender c.inputs = some v) :
    (to_r1cs_system c).public_input_names =
      [balanceName c.sender, balanceName c.sender, transferName] ∧
    alookup (balanceName c.sender) (to_r1cs_system c).var_map = some 1 ∧
    (to_r1cs_system c).public_input_names.dedup.length = 2 ∧
    (to_r1cs_system c).num_public_inputs = (1 + 2) + 1 ∧
    (∃ rest, (to_r1cs_system c).raw_constraints =
      pinConstraint 1 v :: pinConstraint 1 v :: rest) := by
  have hpre := preamble_sr c hsr.symm hl
  have hb1 : ¬(oneName = balanceName c.sender) := fun h => balanceName_ne_one c.sender h.symm
  have hb3 : ¬(balanceName c.sender = transferName) := balanceName_ne_transfer c.sender
  refine ⟨?_, ?_, ?_, ?_, ?_⟩
  · rw [to_r1cs_pubs, hpre]
  · refine lookup_final ?_
    rw [hpre]
    simp [alookup, hb1]
  · rw [to_r1cs_pubs, hpre]
    simp [List.dedup_cons_of_mem, List.dedup_cons_of_not_mem, hb3]
  · rw [to_r1cs_numpub, hpre]
    rfl
  · refine ⟨pinConstraint 2 c.transfer_amount ::
      (compileGates (preambleState c).vm (preambleState c).next c.gates).2.2, ?_⟩
    rw [to_r1cs_raw, hpre]
    simp

/-- Witness for C10 on a concrete self-transfer circuit. -/
theorem C10_witness :
    (to_r1cs_system cw10).public_input_names =
      [balanceName cw10.sender, balanceName cw10.sender, transferName] ∧
    alookup (balanceName cw10.sender) (to_r1cs_system cw10).var_map = some 1 ∧
    (to_r1cs_system cw10).public_input_names.dedup.length = 2 ∧
    (to_r1cs_system cw10).num_public_inputs = (1 + 2) + 1 ∧
    (∃ rest, (to_r1cs_system cw10).raw_constraints =
      pinConstraint 1 5 :: pinConstraint 1 5 :: rest) :=
  C10_duplicate_public_input cw10 rfl 5 (by decide)

theorem wrap32_eq_self {x : Int} (h1 : -(2 ^ 31) ≤ x) (h2 : x < 2 ^ 31) :
    wrap32 x = x := by
  unfold wrap32
  rw [Int.emod_eq_of_lt (by omega) (by omega)]
  omega

/-- C8 as stated fails: a validated transfer can overflow the i32 sender
balance (balance 2147483647, amount -1 passes validate_transfer), in which
case the i32 compound assignment wraps (release builds; debug builds abort),
so the stored balance is not the exact integer decrement. -/
theorem C8_counterexample :
    validate_transfer cw8o = true ∧
    alookup cw8o.sender (execute_transfer cw8o).inputs = some (-2147483648) ∧
    ((-2147483648 : Int) ≠ 2147483647 - (-1)) := by
  refine ⟨by decide, by decide, by decide⟩

/-- C8 amended: execute_transfer is the identity when the transfer does not
validate; when it validates, the sender balance is decremented and the
receiver balance (when the receiver is a declared input; net zero when
sender = receiver) is incremented, exactly as claimed whenever the updated
values are representable as i32 (otherwise the stored cell wraps). -/
theorem C8_execute_transfer (c : Circuit) :
    (validate_transfer c = false → execute_transfer c = c) ∧
    (∀ sBal, validate_transfer c = true → alookup c.sender c.inputs = some sBal →
      (c.sender = c.receiver →
        -(2 ^ 31) ≤ sBal - c.transfer_amount → sBal - c.transfer_amount < 2 ^ 31 →
        -(2 ^ 31) ≤ sBal → sBal < 2 ^ 31 →
        alookup c.sender (execute_transfer c).inputs =
          some (sBal - c.transfer_amount + c.transfer_amount)) ∧
      (c.sender ≠ c.receiver →
        (-(2 ^ 31) ≤ sBal - c.transfer_amount → sBal - c.transfer_amount < 2 ^ 31 →
          alookup c.sender (execute_transfer c).inputs =
            some (sBal - c.transfer_amount)) ∧
        ∀ rBal, alookup c.receiver c.inputs = some rBal →
          -(2 ^ 31) ≤ rBal + c.transfer_amount → rBal + c.transfer_amount < 2 ^ 31 →
          alookup c.receiver (execute_transfer c).inputs =
            some (rBal + c.transfer_amount))) := by
  constructor
  · intro h
    simp [execute_transfer, h]
  · intro sBal hval hs
    constructor
    · intro heq hr1 hr2 hr3 hr4
      have h1 : alookup c.sender (aadjust c.sender
          (fun v => wrap32 (v - c.transfer_amount)) c.inputs) =
          some (wrap32 (sBal - c.transfer_amount)) :=
        alookup_aadjust_self hs
      simp only [execute_transfer, hval, if_true]
      rw [← heq]
      have h2 := alookup_aadjust_self (f := fun v => wrap32 (v + c.transfer_amount)) h1
      rw [h2]
      show some (wrap32 (wrap32 (sBal - c.transfer_amount) + c.transfer_amount)) =
        some (sBal - c.transfer_amount + c.transfer_amount)
      rw [wrap32_eq_self hr1 hr2, wrap32_eq_self (by omega) (by omega)]
    · intro hne
      constructor
      · intro hr1 hr2
        simp only [execute_transfer, hval, if_true]
        rw [alookup_aadjust_ne (Ne.symm hne)]
        rw [alookup_aadjust_self hs]
        show some (wrap32 (sBal - c.transfer_amount)) = some (sBal - c.transfer_amount)
        rw [wrap32_eq_self hr1 hr2]
      · intro rBal hr hr1 hr2
        simp only [execute_transfer, hval, if_true]
        have h1 : alookup c.receiver (aadjust c.sender
            (fun v => wrap32 (v - c.transfer_amount)) c.inputs) = some rBal := by
          rw [alookup_aadjust_ne hne]
          exact hr
        have h2 := alookup_aadjust_self (f := fun v => wrap32 (v + c.transfer_amount)) h1
        rw [h2]
        show some (wrap32 (rBal + c.transfer_amount)) = some (rBal + c.transfer_amount)
        rw [wrap32_eq_self hr1 hr2]

/-- Witness for the amended C8 on a concrete in-range transfer circuit. -/
theorem C8_witness :
    validate_transfer cw8 = true ∧
    alookup cw8.sender (execute_transfer cw8).inputs = some 7 ∧
    alookup cw8.receiver (execute_transfer cw8).inputs = some 23 := by
  have h := ((C8_execute_transfer cw8).2 10 (by decide) (by decide)).2 (by decide)
  refine ⟨by decide, ?_, ?_⟩
  · exact (h.1 (by decide) (by decide)).trans (by decide)
  · exact (h.2 20 (by decide) (by decide) (by decide)).trans (by decide)

/-- C9: i32_to_fr is total by construction, and on every signed 32-bit value
whose negation is also representable it commutes with negation. -/
theorem C9_i32_to_fr_neg (n : Int)
    (h1 : -(2 ^ 31) ≤ n ∧ n < 2 ^ 31)
    (h2 : -(2 ^ 31) ≤ -n ∧ -n < 2 ^ 31) :
    i32_to_fr (-n) = -(i32_to_fr n) := by
  rcases lt_trichotomy n 0 with hn | hn | hn
  · have hpos : ¬(-n < 0) := by omega
    simp only [i32_to_fr, if_pos hn, if_neg hpos, neg_neg]
  · subst hn
    simp [i32_to_fr]
  · have hneg : -n < 0 := by omega
    have hnpos : ¬(n < 0) := by omega
    simp only [i32_to_fr, if_pos hneg, if_neg hnpos, neg_neg]

/-- Witness for C9 at n = 5. -/
theorem C9_witness :
    (-(2 ^ 31) ≤ (5 : Int) ∧ (5 : Int) < 2 ^ 31) ∧
    i32_to_fr (-5) = -(i32_to_fr 5) :=
  ⟨by decide, C9_i32_to_fr_neg 5 (by decide) (by decide)⟩

section WitnessInfra

/-- Evaluation of a concatenated gate sequence runs the first part and, on
success, continues with the second. -/
theorem evalGates_append (gs1 gs2 : List Gate) : ∀ (w : List (Name × Fr)),
    evalGates w (gs1 ++ gs2) =
      match evalGates w gs1 with
      | .ok w2 => evalGates w2 gs2
      | .error e => .error e := by
  induction gs1 with
  | nil => intro w; rfl
  | cons g rest ih =>
    intro w
    simp only [List.cons_append, evalGates]
    cases evalGate w g with
    | ok w2 => exact ih w2
    | error e => rfl

theorem compute_witness_of_error {c : Circuit} {vm : List (Name × Nat)} {e : WitnessError}
    (h : evalGates (seedWires c) c.gates = .error e) :
    compute_witness c vm = .error e := by
  simp [compute_witness, h]

/-- A wire outside the write set of a gate keeps its value across the gate. -/
theorem evalGate_stable {w w2 : List (Name × Fr)} {g : Gate}
    (h : evalGate w g = .ok w2) {n : Name} (hn : n ∉ gateWrites g) :
    alookup n w2 = alookup n w := by
  cases g with
  | Add a b c m =>
    simp only [gateWrites, List.mem_singleton] at hn
    cases ha : alookup a w with
    | none => simp [evalGate, ha] at h
    | some va =>
      cases hb : alookup b w with
      | none => simp [evalGate, ha, hb] at h
      | some vb =>
        simp only [evalGate, ha, hb, Except.ok.injEq] at h
        rw [← h]
        exact alookup_aupsert_ne (Ne.symm hn) _ _
  | Mul a b c m =>
    simp only [gateWrites, List.mem_singleton] at hn
    cases ha : alookup a w with
    | none => simp [evalGate, ha] at h
    | some va =>
      cases hb : alookup b w with
      | none => simp [evalGate, ha, hb] at h
      | some vb =>
        simp only [evalGate, ha, hb, Except.ok.injEq] at h
        rw [← h]
        exact alookup_aupsert_ne (Ne.symm hn) _ _
  | Sub a b c m =>
    simp only [gateWrites, List.mem_singleton] at hn
    cases ha : alookup a w with
    | none => simp [evalGate, ha] at h
    | some va =>
      cases hb : alookup b w with
      | none => simp [evalGate, ha, hb] at h
      | some vb =>
        simp only [evalGate, ha, hb, Except.ok.injEq] at h
        rw [← h]
        exact alookup_aupsert_ne (Ne.symm hn) _ _
  | Eq a b outp =>
    simp only [gateWrites, List.mem_singleton] at hn
    cases ha : alookup a w with
    | none => simp [evalGate, ha] at h
    | some va =>
      cases hb : alookup b w with
      | none => simp [evalGate, ha, hb] at h
      | some vb =>
        by_cases hv : va = vb
        · simp only [evalGate, ha, hb, hv, ne_eq, not_true_eq_false, if_false,
            Except.ok.injEq] at h
          rw [← h]
          exact alookup_aupsert_ne (Ne.symm hn) _ _
        · simp [evalGate, ha, hb, hv] at h
  | Hash inp outp =>
    simp only [gateWrites, List.mem_singleton] at hn
    cases ha : alookup inp w with
    | none => simp [evalGate, ha] at h
    | some iv =>
      simp only [evalGate, ha, Except.ok.injEq] at h
      rw [← h]
      exact alookup_aupsert_ne (Ne.symm hn) _ _
  | Const nm v =>
    simp only [gateWrites, List.mem_singleton] at hn
    simp only [evalGate, Except.ok.injEq] at h
    rw [← h]
    exact alookup_aupsert_ne (Ne.symm hn) _ _
  | Xor a b c =>
    simp only [gateWrites, List.mem_cons, List.not_mem_nil, or_false] at hn
    push_neg at hn
    cases ha : alookup a w with
    | none => simp [evalGate, ha] at h
    | some va =>
      cases hb : alookup b w with
      | none => simp [evalGate, ha, hb] at h
      | some vb =>
        by_cases hba : va = 0 ∨ va = 1
        · by_cases hbb : vb = 0 ∨ vb = 1
          · simp only [evalGate, ha, hb, hba, hbb, if_true, Except.ok.injEq] at h
            rw [← h]
            rw [alookup_aupsert_ne (Ne.symm hn.2) _ _]
            exact alookup_aupsert_ne (Ne.symm hn.1) _ _
          · simp [evalGate, ha, hb, hba, hbb] at h
        · simp [evalGate, ha, hb, hba] at h

/-- A gate evaluation step preserves the no-duplicate-keys invariant of the
wire valuation. -/
theorem evalGate_nodup {w w2 : List (Name × Fr)} {g : Gate}
    (h : evalGate w g = .ok w2) (hw : (w.map Prod.fst).Nodup) :
    (w2.map Prod.fst).Nodup := by
  cases g with
  | Add a b c m =>
    cases ha : alookup a w with
    | none => simp [evalGate, ha] at h
    | some va =>
      cases hb : alookup b w with
      | none => simp [evalGate, ha, hb] at h
      | some vb =>
        simp only [evalGate, ha, hb, Except.ok.injEq] at h
        rw [← h]
        exact nodup_fst_aupsert _ _ hw
  | Mul a b c m =>
    cases ha : alookup a w with
    | none => simp [evalGate, ha] at h
    | some va =>
      cases hb : alookup b w with
      | none => simp [evalGate, ha, hb] at h
      | some vb =>
        simp only [evalGate, ha, hb, Except.ok.injEq] at h
        rw [← h]
        exact nodup_fst_aupsert _ _ hw
  | Sub a b c m =>
    cases ha : alookup a w with
    | none => simp [evalGate, ha] at h
    | some va =>
      cases hb : alookup b w with
      | none => simp [evalGate, ha, hb] at h
      | some vb =>
        simp only [evalGate, ha, hb, Except.ok.injEq] at h
        rw [← h]
        exact nodup_fst_aupsert _ _ hw
  | Eq a b outp =>
    cases ha : alookup a w with
    | none => simp [evalGate, ha] at h
    | some va =>
      cases hb : alookup b w with
      | none => simp [evalGate, ha, hb] at h
      | some vb =>
        by_cases hv : va = vb
        · simp only [evalGate, ha, hb, hv, ne_eq, not_true_eq_false, if_false,
            Except.ok.injEq] at h
          rw [← h]
          exact nodup_fst_aupsert _ _ hw
        · simp [evalGate, ha, hb, hv] at h
  | Hash inp outp =>
    cases ha : alookup inp w with
    | none => simp [evalGate, ha] at h
    | some iv =>
      simp only [evalGate, ha, Except.ok.injEq] at h
      rw [← h]
      exact nodup_fst_aupsert _ _ hw
  | Const nm v =>
    simp only [evalGate, Except.ok.injEq] at h
    rw [← h]
    exact nodup_fst_aupsert _ _ hw
  | Xor a b c =>
    cases ha : alookup a w with
    | none => simp [evalGate, ha] at h
    | some va =>
      cases hb : alookup b w with
      | none => simp [evalGate, ha, hb] at h
      | some vb =>
        by_cases hba : va = 0 ∨ va = 1
        · by_cases hbb : vb = 0 ∨ vb = 1
          · simp only [evalGate, ha, hb, hba, hbb, if_true, Except.ok.injEq] at h
            rw [← h]
            exact nodup_fst_aupsert _ _ (nodup_fst_aupsert _ _ hw)
          · simp [evalGate, ha, hb, hba, hbb] at h
        · simp [evalGate, ha, hb, hba] at h

/-- A wire outside the write set of a gate sequence keeps its value. -/
theorem evalGates_stable : ∀ {gs : List Gate} {w W : List (Name × Fr)},
    evalGates w gs = .ok W → ∀ {n : Name}, n ∉ writesList gs →
    alookup n W = alookup n w := by
  intro gs
  induction gs with
  | nil =>
    intro w W h n hn
    simp only [evalGates, Except.ok.injEq] at h
    rw [← h]
  | cons g rest ih =>
    intro w W h n hn
    simp only [evalGates] at h
    cases hg : evalGate w g with
    | error e => rw [hg] at h; simp at h
    | ok w2 =>
      rw [hg] at h
      have hn1 : n ∉ gateWrites g := fun hx => hn (by simp [writesList, hx])
      have hn2 : n ∉ writesList rest := fun hx => hn (by simp [writesList, hx])
      rw [ih h hn2, evalGate_stable hg hn1]

theorem evalGates_nodup : ∀ {gs : List Gate} {w W : List (Name × Fr)},
    evalGates w gs = .ok W → (w.map Prod.fst).Nodup → (W.map Prod.fst).Nodup := by
  intro gs
  induction gs with
  | nil =>
    intro w W h hw
    simp only [evalGates, Except.ok.injEq] at h
    rw [← h]
    exact hw
  | cons g rest ih =>
    intro w W h hw
    simp only [evalGates] at h
    cases hg : evalGate w g with
    | error e => rw [hg] at h; simp at h
    | ok w2 =>
      rw [hg] at h
      exact ih h (evalGate_nodup hg hw)

theorem seedInputs_nodup : ∀ (l : List (Name × Int)) (w : List (Name × Fr)),
    (w.map Prod.fst).Nodup → ((seedInputs l w).map Prod.fst).Nodup := by
  intro l
  induction l with
  | nil => intro w hw; exact hw
  | cons p rest ih => intro w hw; exact ih _ (nodup_fst_aupsert _ _ hw)

theorem seedWires_nodup (c : Circuit) : ((seedWires c).map Prod.fst).Nodup := by
  have h0 : ((seedInputs c.inputs []).map Prod.fst).Nodup :=
    seedInputs_nodup c.inputs [] (by simp)
  unfold seedWires
  cases alookup c.sender c.inputs <;> cases alookup c.receiver c.inputs <;>
    simp only [] <;>
    repeat' apply nodup_fst_aupsert
  all_goals exact h0

/-- The constant-one wire is seeded with value one. -/
theorem seed_one (c : Circuit) : alookup oneName (seedWires c) = some 1 := by
  have e1 : ∀ (v : Fr) (m : List (Name × Fr)),
      alookup oneName (aupsert transferName v m) = alookup oneName m :=
    fun v m => alookup_aupsert_ne transferName_ne_one v m
  have e2 : ∀ (s : Name) (v : Fr) (m : List (Name × Fr)),
      alookup oneName (aupsert (balanceName s) v m) = alookup oneName m :=
    fun s v m => alookup_aupsert_ne (balanceName_ne_one s) v m
  unfold seedWires
  cases alookup c.sender c.inputs <;> cases alookup c.receiver c.inputs <;>
    simp [e1, e2, alookup_aupsert_self]

/-- The public transfer-amount wire is seeded with its literal. -/
theorem seed_transfer (c : Circuit) :
    alookup transferName (seedWires c) = some (i32_to_fr c.transfer_amount) := by
  unfold seedWires
  exact alookup_aupsert_self _ _ _

/-- The sender balance wire is seeded with the sender balance. -/
theorem seed_sender (c : Circuit) {v : Int} (hs : alookup c.sender c.inputs = some v) :
    alookup (balanceName c.sender) (seedWires c) = some (i32_to_fr v) := by
  have e1 : ∀ (x : Fr) (m : List (Name × Fr)),
      alookup (balanceName c.sender) (aupsert transferName x m) =
        alookup (balanceName c.sender) m :=
    fun x m => alookup_aupsert_ne (Ne.symm (balanceName_ne_transfer c.sender)) x m
  unfold seedWires
  rw [hs]
  cases hr : alookup c.receiver c.inputs with
  | none =>
    simp only []
    rw [e1]
    exact alookup_aupsert_self _ _ _
  | some vr =>
    by_cases hrs : c.receiver = c.sender
    · have hv : vr = v := by
        rw [hrs, hs] at hr
        exact (Option.some.inj hr).symm
      subst hv
      simp only []
      rw [e1, hrs]
      exact alookup_aupsert_self _ _ _
    · have hne : balanceName c.receiver ≠ balanceName c.sender :=
        fun hx => hrs (balanceName_inj hx)
      simp only []
      rw [e1, alookup_aupsert_ne hne]
      exact alookup_aupsert_self _ _ _

/-- The receiver balance wire is seeded with the receiver balance. -/
theorem seed_receiver (c : Circuit) {v : Int} (hr : alookup c.receiver c.inputs = some v) :
    alookup (balanceName c.receiver) (seedWires c) = some (i32_to_fr v) := by
  have e1 : ∀ (x : Fr) (m : List (Name × Fr)),
      alookup (balanceName c.receiver) (aupsert transferName x m) =
        alookup (balanceName c.receiver) m :=
    fun x m => alookup_aupsert_ne (Ne.symm (balanceName_ne_transfer c.receiver)) x m
  unfold seedWires
  rw [hr]
  cases hs : alookup c.sender c.inputs <;>
    · simp only []
      rw [e1]
      exact alookup_aupsert_self _ _ _

theorem checkComplete_ok {proj : List (Nat × Fr)} : ∀ {l : List (Name × Nat)},
    checkComplete proj l = .ok () → ∀ p ∈ l, (alookup p.2 proj).isSome := by
  intro l
  induction l with
  | nil => intro _ p hp; simp at hp
  | cons q rest ih =>
    intro h p hp
    obtain ⟨qn, qi⟩ := q
    by_cases hq : (alookup qi proj).isSome
    · simp only [checkComplete, hq, if_true] at h
      rcases List.mem_cons.1 hp with h1 | h1
      · rw [h1]
        exact hq
      · exact ih h p h1
    · simp [checkComplete, hq] at h

/-- When some var_map entry has no projected value, the completeness check
fails with the missing-witness error of such an entry. -/
theorem checkComplete_err {proj : List (Nat × Fr)} : ∀ {l : List (Name × Nat)},
    (∃ p ∈ l, alookup p.2 proj = none) →
    ∃ n idx, (n, idx) ∈ l ∧ alookup idx proj = none ∧
      checkComplete proj l = .error (.missingWitness n idx) := by
  intro l
  induction l with
  | nil =>
    intro h
    simp at h
  | cons q rest ih =>
    intro h
    obtain ⟨qn, qi⟩ := q
    by_cases hq : (alookup qi proj).isSome
    · have h2 : ∃ p ∈ rest, alookup p.2 proj = none := by
        obtain ⟨p, hp, hnone⟩ := h
        rcases List.mem_cons.1 hp with rfl | hp2
        · rw [hnone] at hq
          simp at hq
        · exact ⟨p, hp2, hnone⟩
      obtain ⟨n, idx, hmem, hnone, hcc⟩ := ih h2
      exact ⟨n, idx, List.mem_cons_of_mem _ hmem, hnone,
        by simp [checkComplete, hq, hcc]⟩
    · refine ⟨qn, qi, by simp, Option.not_isSome_iff_eq_none.1 hq, ?_⟩
      simp [checkComplete, hq]

theorem compute_witness_ok {c : Circuit} {vm : List (Name × Nat)} {w : List (Nat × Fr)}
    (h : compute_witness c vm = .ok w) :
    ∃ wires, evalGates (seedWires c) c.gates = .ok wires ∧
      w = projectWitness vm wires [] ∧
      checkComplete (projectWitness vm wires []) vm = .ok () := by
  unfold compute_witness at h
  cases he : evalGates (seedWires c) c.gates with
  | error e => rw [he] at h; simp at h
  | ok wires =>
    rw [he] at h
    cases hc : checkComplete (projectWitness vm wires []) vm with
    | error e =>
      simp only [hc] at h
      exact absurd h (by simp)
    | ok u =>
      cases u
      simp only [hc, Except.ok.injEq] at h
      exact ⟨wires, rfl, h.symm, hc⟩

/-- Indices whose var_map preimages are absent from the processed wires keep
their projection value. -/
theorem projectWitness_stable (vm : List (Name × Nat)) :
    ∀ (wires : List (Name × Fr)) (acc : List (Nat × Fr)) (i : Nat),
      (∀ n ∈ wires.map Prod.fst, alookup n vm ≠ some i) →
      alookup i (projectWitness vm wires acc) = alookup i acc := by
  intro wires
  induction wires with
  | nil => intro acc i _; rfl
  | cons p rest ih =>
    intro acc i h
    obtain ⟨n, v⟩ := p
    cases hv : alookup n vm with
    | none =>
      simp only [projectWitness, hv]
      exact ih _ _ (fun n2 hn2 => h n2 (by simp [hn2]))
    | some idx =>
      simp only [projectWitness, hv]
      have hne : idx ≠ i := by
        intro hx
        exact h n (by simp) (by rw [hv, hx])
      rw [ih _ _ (fun n2 hn2 => h n2 (by simp [hn2]))]
      exact alookup_aupsert_ne hne _ _

/-- The projected value at an index is the wire value of the unique name that
the var_map sends to that index. -/
theorem projectWitness_get (vm : List (Name × Nat)) {n : Name} {i : Nat} {v : Fr} :
    ∀ (wires : List (Name × Fr)) (acc : List (Nat × Fr)),
      (wires.map Prod.fst).Nodup →
      alookup n vm = some i →
      alookup n wires = some v →
      (∀ n2, alookup n2 vm = some i → n2 = n) →
      alookup i (projectWitness vm wires acc) = some v := by
  intro wires
  induction wires with
  | nil =>
    intro acc _ _ hw _
    simp [alookup] at hw
  | cons p rest ih =>
    intro acc hnd hvm hw huniq
    obtain ⟨n0, v0⟩ := p
    simp only [List.map_cons, List.nodup_cons] at hnd
    by_cases h0 : n0 = n
    · subst h0
      simp only [alookup, if_pos rfl] at hw
      simp only [projectWitness, hvm]
      rw [projectWitness_stable vm rest _ i ?stab]
      · rw [← hw]
        exact alookup_aupsert_self _ _ _
      case stab =>
        intro n2 hn2 hcontra
        exact hnd.1 (by rw [huniq n2 hcontra] at hn2; exact hn2)
    · simp only [alookup, if_neg h0] at hw
      cases hv0 : alookup n0 vm with
      | none =>
        simp only [projectWitness, hv0]
        exact ih _ hnd.2 hvm hw huniq
      | some idx0 =>
        simp only [projectWitness, hv0]
        exact ih _ hnd.2 hvm hw huniq

/-- Every index carrying a projected value is an index of the var_map. -/
theorem projectWitness_domain (vm : List (Name × Nat)) :
    ∀ (wires : List (Name × Fr)) (acc : List (Nat × Fr)) (i : Nat),
      (alookup i (projectWitness vm wires acc)).isSome →
      (alookup i acc).isSome ∨ i ∈ vm.map Prod.snd := by
  intro wires
  induction wires with
  | nil => intro acc i h; exact Or.inl h
  | cons p rest ih =>
    intro acc i h
    obtain ⟨n, v⟩ := p
    cases hv : alookup n vm with
    | none =>
      simp only [projectWitness, hv] at h
      exact ih _ _ h
    | some idx =>
      simp only [projectWitness, hv] at h
      rcases ih _ _ h with h1 | h1
      · by_cases hi : i = idx
        · subst hi
          exact Or.inr (List.mem_map.2 ⟨(n, i), alookup_mem hv, rfl⟩)
        · rw [alookup_aupsert_ne (Ne.symm hi) _ _] at h1
          exact Or.inl h1
      · exact Or.inr h1

end WitnessInfra

/-- C6: a reached Eq gate with unequal operand values makes compute_witness
fail with the equality-mismatch error (and with equal values it assigns the
output wire zero); a reached Xor gate with a non-boolean operand makes
compute_witness fail with the non-boolean-input error naming that operand. -/
theorem C6_witness_error_detection :
    (∀ (c : Circuit) (vm : List (Name × Nat)) (pre post : List Gate)
       (a b outp : Name) (w : List (Name × Fr)) (va vb : Fr),
       c.gates = pre ++ Gate.Eq a b outp :: post →
       evalGates (seedWires c) pre = .ok w →
       alookup a w = some va → alookup b w = some vb →
       (va ≠ vb → compute_witness c vm = .error (.equalityMismatch a b)) ∧
       (va = vb → evalGate w (Gate.Eq a b outp) = .ok (aupsert outp 0 w))) ∧
    (∀ (c : Circuit) (vm : List (Name × Nat)) (pre post : List Gate)
       (a b cc : Name) (w : List (Name × Fr)) (va vb : Fr),
       c.gates = pre ++ Gate.Xor a b cc :: post →
       evalGates (seedWires c) pre = .ok w →
       alookup a w = some va → alookup b w = some vb →
       (¬(va = 0 ∨ va = 1) → compute_witness c vm = .error (.nonBooleanInput a)) ∧
       ((va = 0 ∨ va = 1) → ¬(vb = 0 ∨ vb = 1) →
         compute_witness c vm = .error (.nonBooleanInput b))) := by
  constructor
  · intro c vm pre post a b outp w va vb hg hpre ha hb
    constructor
    · intro hne
      apply compute_witness_of_error
      rw [hg, evalGates_append, hpre]
      simp [evalGates, evalGate, ha, hb, hne]
    · intro heq
      simp [evalGate, ha, hb, heq]
  · intro c vm pre post a b cc w va vb hg hpre ha hb
    constructor
    · intro hna
      apply compute_witness_of_error
      rw [hg, evalGates_append, hpre]
      simp [evalGates, evalGate, ha, hb, hna]
    · intro hba hnb
      apply compute_witness_of_error
      rw [hg, evalGates_append, hpre]
      simp [evalGates, evalGate, ha, hb, hba, hnb]

/-- Witness for C6 on concrete mismatching Eq and non-boolean Xor circuits. -/
theorem C6_witness :
    compute_witness cw6a [] = .error (.equalityMismatch ("a") ("b")) ∧
    compute_witness cw6b [] = .error (.nonBooleanInput ("a")) := by
  constructor
  · exact ((C6_witness_error_detection.1 cw6a [] [] [] ("a") ("b") ("d")
      (seedWires cw6a) (i32_to_fr 3) (i32_to_fr 4) rfl rfl (by decide) (by decide)).1
      (by decide))
  · exact ((C6_witness_error_detection.2 cw6b [] [] [] ("a") ("b") ("c")
      (seedWires cw6b) (i32_to_fr 2) (i32_to_fr 0) rfl rfl (by decide)
      (by decide)).1 (by decide))

/-- C7 as stated fails: a Const gate named on the constant-one wire makes the
successful witness carry 3 at index 0. -/
theorem C7_counterexample :
    Except.map (fun w => zOf w 0) (compute_witness cw7 (to_r1cs_system cw7).var_map) =
      .ok 3 ∧ (3 : Fr) ≠ 1 := by
  constructor
  · rfl
  · decide

/-- C7 amended: a successful compute_witness covers every var_map index and
only var_map indices; when a var_map entry has no computed value after the
gates are processed, compute_witness returns the missing-witness error of
such an entry instead of a partial assignment; and the value at index 0 is
F(1) provided the var_map sends only the name 1 to index 0 and no gate
writes the wire named 1. -/
theorem C7_witness_coverage :
    (∀ (c : Circuit) (vm : List (Name × Nat)) (w : List (Nat × Fr)),
      compute_witness c vm = .ok w →
      (∀ p ∈ vm, (alookup p.2 w).isSome) ∧
      (∀ i : Nat, (alookup i w).isSome → i ∈ vm.map Prod.snd) ∧
      (alookup oneName vm = some 0 →
       (∀ p ∈ vm, p.2 = 0 → p.1 = oneName) →
       oneName ∉ writesList c.gates →
       alookup 0 w = some 1)) ∧
    (∀ (c : Circuit) (vm : List (Name × Nat)) (wires : List (Name × Fr)),
      evalGates (seedWires c) c.gates = .ok wires →
      (∃ p ∈ vm, alookup p.2 (projectWitness vm wires []) = none) →
      ∃ n idx, (n, idx) ∈ vm ∧ alookup idx (projectWitness vm wires []) = none ∧
        compute_witness c vm = .error (.missingWitness n idx)) := by
  constructor
  · intro c vm w hw
    obtain ⟨wires, he, hwp, hcc⟩ := compute_witness_ok hw
    subst hwp
    refine ⟨fun p hp => checkComplete_ok hcc p hp, ?_, ?_⟩
    · intro i hi
      rcases projectWitness_domain vm wires [] i hi with h1 | h1
      · simp [alookup] at h1
      · exact h1
    · intro hone huniq hnw
      have hW : alookup oneName wires = some 1 := by
        rw [evalGates_stable he hnw]
        exact seed_one c
      have hnd : (wires.map Prod.fst).Nodup := evalGates_nodup he (seedWires_nodup c)
      exact projectWitness_get vm wires [] hnd hone hW
        (fun n2 h2 => huniq (n2, 0) (alookup_mem h2) rfl)
  · intro c vm wires he hmiss
    obtain ⟨n, idx, hmem, hnone, hcc⟩ := checkComplete_err hmiss
    exact ⟨n, idx, hmem, hnone, by simp [compute_witness, he, hcc]⟩

section StepA

theorem isSome_aupsert {κ α : Type} [DecidableEq κ] {n k : κ} {v : α} {m : List (κ × α)} :
    (alookup n (aupsert k v m)).isSome ↔ n = k ∨ (alookup n m).isSome := by
  rw [alookup_isSome_iff, mem_fst_aupsert, alookup_isSome_iff]

/-- Every wire carrying a value after a gate was written by the gate or
already carried one. -/
theorem evalGate_domain {w w2 : List (Name × Fr)} {g : Gate}
    (h : evalGate w g = .ok w2) :
    ∀ n, (alookup n w2).isSome → n ∈ gateWrites g ∨ (alookup n w).isSome := by
  cases g with
  | Add a b c m =>
    cases ha : alookup a w with
    | none => simp [evalGate, ha] at h
    | some va =>
      cases hb : alookup b w with
      | none => simp [evalGate, ha, hb] at h
      | some vb =>
        simp only [evalGate, ha, hb, Except.ok.injEq] at h
        intro n hn
        rw [← h, isSome_aupsert] at hn
        simpa [gateWrites] using hn
  | Mul a b c m =>
    cases ha : alookup a w with
    | none => simp [evalGate, ha] at h
    | some va =>
      cases hb : alookup b w with
      | none => simp [evalGate, ha, hb] at h
      | some vb =>
        simp only [evalGate, ha, hb, Except.ok.injEq] at h
        intro n hn
        rw [← h, isSome_aupsert] at hn
        simpa [gateWrites] using hn
  | Sub a b c m =>
    cases ha : alookup a w with
    | none => simp [evalGate, ha] at h
    | some va =>
      cases hb : alookup b w with
      | none => simp [evalGate, ha, hb] at h
      | some vb =>
        simp only [evalGate, ha, hb, Except.ok.injEq] at h
        intro n hn
        rw [← h, isSome_aupsert] at hn
        simpa [gateWrites] using hn
  | Eq a b outp =>
    cases ha : alookup a w with
    | none => simp [evalGate, ha] at h
    | some va =>
      cases hb : alookup b w with
      | none => simp [evalGate, ha, hb] at h
      | some vb =>
        by_cases hv : va = vb
        · simp only [evalGate, ha, hb, hv, ne_eq, not_true_eq_false, if_false,
            Except.ok.injEq] at h
          intro n hn
          rw [← h, isSome_aupsert] at hn
          simpa [gateWrites] using hn
        · simp [evalGate, ha, hb, hv] at h
  | Hash inp outp =>
    cases ha : alookup inp w with
    | none => simp [evalGate, ha] at h
    | some iv =>
      simp only [evalGate, ha, Except.ok.injEq] at h
      intro n hn
      rw [← h, isSome_aupsert] at hn
      simpa [gateWrites] using hn
  | Const nm v =>
    simp only [evalGate, Except.ok.injEq] at h
    intro n hn
    rw [← h, isSome_aupsert] at hn
    simpa [gateWrites] using hn
  | Xor a b c =>
    cases ha : alookup a w with
    | none => simp [evalGate, ha] at h
    | some va =>
      cases hb : alookup b w with
      | none => simp [evalGate, ha, hb] at h
      | some vb =>
        by_cases hba : va = 0 ∨ va = 1
        · by_cases hbb : vb = 0 ∨ vb = 1
          · simp only [evalGate, ha, hb, hba, hbb, if_true, Except.ok.injEq] at h
            intro n hn
            rw [← h, isSome_aupsert, isSome_aupsert] at hn
            simp only [gateWrites, List.mem_cons, List.mem_singleton, List.not_mem_nil,
              or_false]
            tauto
          · simp [evalGate, ha, hb, hba, hbb] at h
        · simp [evalGate, ha, hb, hba] at h

/-- Step A for the main witness-satisfaction proof: under the straight-line
discipline, a successful evaluation preserves all existing wire values and
leaves the semantic record of every gate in the final valuation. -/
theorem evalGates_holds : ∀ (gs : List Gate) (w W : List (Name × Fr)),
    evalGates w gs = .ok W →
    (writesList gs).Nodup →
    (∀ n, (alookup n w).isSome → n ∉ writesList gs) →
    (∀ n v, alookup n w = some v → alookup n W = some v) ∧
    (∀ g ∈ gs, GateHolds (fun n => alookup n W) g) := by
  intro gs
  induction gs with
  | nil =>
    intro w W h _ _
    simp only [evalGates, Except.ok.injEq] at h
    subst h
    exact ⟨fun _ _ hv => hv, by simp⟩
  | cons g rest ih =>
    intro w W h hnd hdisj
    simp only [evalGates] at h
    cases hg : evalGate w g with
    | error e => rw [hg] at h; simp at h
    | ok w2 =>
      rw [hg] at h
      have hnd' : (gateWrites g).Nodup ∧ (writesList rest).Nodup ∧
          (gateWrites g).Disjoint (writesList rest) := by
        have hx := hnd
        simp only [writesList] at hx
        exact List.nodup_append.1 hx
      have hdisj2 : ∀ n, (alookup n w2).isSome → n ∉ writesList rest := by
        intro n hn
        rcases evalGate_domain hg n hn with hmem | hmem
        · exact fun hx => hnd'.2.2 hmem hx
        · have hx := hdisj n hmem
          simp only [writesList, List.mem_append] at hx
          exact fun hy => hx (Or.inr hy)
      obtain ⟨ihstab, ihGH⟩ := ih w2 W h hnd'.2.1 hdisj2
      have hkeep : ∀ n v, alookup n w = some v → alookup n W = some v := by
        intro n v hv
        have hnw : n ∉ gateWrites g := by
          have hx := hdisj n (by rw [hv]; rfl)
          simp only [writesList, List.mem_append] at hx
          exact fun hy => hx (Or.inl hy)
        exact ihstab n v (by rw [evalGate_stable hg hnw]; exact hv)
      refine ⟨hkeep, ?_⟩
      intro gx hgx
      rcases List.mem_cons.1 hgx with rfl | hgx
      · cases gx with
        | Add a b c m =>
          cases ha : alookup a w with
          | none => simp [evalGate, ha] at hg
          | some va =>
            cases hb : alookup b w with
            | none => simp [evalGate, ha, hb] at hg
            | some vb =>
              simp only [evalGate, ha, hb, Except.ok.injEq] at hg
              exact ⟨va, vb, hkeep a va ha, hkeep b vb hb,
                ihstab c _ (by rw [← hg]; exact alookup_aupsert_self _ _ _)⟩
        | Mul a b c m =>
          cases ha : alookup a w with
          | none => simp [evalGate, ha] at hg
          | some va =>
            cases hb : alookup b w with
            | none => simp [evalGate, ha, hb] at hg
            | some vb =>
              simp only [evalGate, ha, hb, Except.ok.injEq] at hg
              exact ⟨va, vb, hkeep a va ha, hkeep b vb hb,
                ihstab c _ (by rw [← hg]; exact alookup_aupsert_self _ _ _)⟩
        | Sub a b c m =>
          cases ha : alookup a w with
          | none => simp [evalGate, ha] at hg
          | some va =>
            cases hb : alookup b w with
            | none => simp [evalGate, ha, hb] at hg
            | some vb =>
              simp only [evalGate, ha, hb, Except.ok.injEq] at hg
              exact ⟨va, vb, hkeep a va ha, hkeep b vb hb,
                ihstab c _ (by rw [← hg]; exact alookup_aupsert_self _ _ _)⟩
        | Eq a b outp =>
          cases ha : alookup a w with
          | none => simp [evalGate, ha] at hg
          | some va =>
            cases hb : alookup b w with
            | none => simp [evalGate, ha, hb] at hg
            | some vb =>
              by_cases hv : va = vb
              · simp only [evalGate, ha, hb, hv, ne_eq, not_true_eq_false, if_false,
                  Except.ok.injEq] at hg
                refine ⟨va, hkeep a va ha, ?_, ?_⟩
                · rw [← hv] at hb
                  exact hkeep b va hb
                · exact ihstab outp _ (by rw [← hg]; exact alookup_aupsert_self _ _ _)
              · simp [evalGate, ha, hb, hv] at hg
        | Hash inp outp =>
          cases ha : alookup inp w with
          | none => simp [evalGate, ha] at hg
          | some iv =>
            simp only [evalGate, ha, Except.ok.injEq] at hg
            exact ⟨iv, hkeep inp iv ha,
              ihstab outp _ (by rw [← hg]; exact alookup_aupsert_self _ _ _)⟩
        | Const nm v =>
          simp only [evalGate, Except.ok.injEq] at hg
          exact ihstab nm _ (by rw [← hg]; exact alookup_aupsert_self _ _ _)
        | Xor a b c =>
          cases ha : alookup a w with
          | none => simp [evalGate, ha] at hg
          | some va =>
            cases hb : alookup b w with
            | none => simp [evalGate, ha, hb] at hg
            | some vb =>
              by_cases hba : va = 0 ∨ va = 1
              · by_cases hbb : vb = 0 ∨ vb = 1
                · simp only [evalGate, ha, hb, hba, hbb, if_true, Except.ok.injEq] at hg
                  have hpc : xorProd a b ≠ c := by
                    have hx := hnd'.1
                    simp only [gateWrites, List.nodup_cons, List.mem_singleton] at hx
                    exact hx.1
                  refine ⟨va, vb, hkeep a va ha, hkeep b vb hb, hba, hbb, ?_, ?_⟩
                  · refine ihstab (xorProd a b) _ ?_
                    rw [← hg, alookup_aupsert_ne (Ne.symm hpc) _ _]
                    exact alookup_aupsert_self _ _ _
                  · exact ihstab c _ (by rw [← hg]; exact alookup_aupsert_self _ _ _)
                · simp [evalGate, ha, hb, hba, hbb] at hg
              · simp [evalGate, ha, hb, hba] at hg
      · exact ihGH gx hgx

end StepA

section StepB

theorem lookup_ne_idx {vm : List (Name × Nat)} {next : Nat} {n1 n2 : Name} {i1 i2 : Nat}
    (h : VmOk vm next) (h1 : alookup n1 vm = some i1) (h2 : alookup n2 vm = some i2)
    (hne : n1 ≠ n2) : i1 ≠ i2 := by
  intro he
  rw [he] at h1
  exact hne (vmOk_lookup_inj h h1 h2)

theorem collectPairs_pair {i j : Nat} {x y : Fr} (hne : i ≠ j) :
    collectPairs [(i, x), (j, y)] = [(i, x), (j, y)] := by
  simp [collectPairs, aupsert, hne]

theorem collectPairs_triple {i j k : Nat} {x y u : Fr}
    (hij : i ≠ j) (hik : i ≠ k) (hjk : j ≠ k) :
    collectPairs [(i, x), (j, y), (k, u)] = [(i, x), (j, y), (k, u)] := by
  simp [collectPairs, aupsert, hij, hik, hjk]

theorem pin_sat {z : Nat → Fr} {idx : Nat} {v : Int}
    (hz0 : z 0 = 1) (hzi : z idx = i32_to_fr v) :
    constraintHolds z (pinConstraint idx v) := by
  simp [constraintHolds, pinConstraint, lcEval, hz0, hzi]

theorem addRow_sat {z : Nat → Fr} {ia ib ic : Nat} {va vb : Fr}
    (hne : ia ≠ ib) (hz0 : z 0 = 1) (hza : z ia = va) (hzb : z ib = vb)
    (hzc : z ic = va + vb) :
    constraintHolds z ⟨collectPairs [(ia, 1), (ib, 1)], collectPairs [(0, 1)],
      collectPairs [(ic, 1)]⟩ := by
  rw [constraintHolds, collectPairs_pair hne]
  simp [collectPairs, aupsert, lcEval, hza, hzb, hzc, hz0]

theorem mulRow_sat {z : Nat → Fr} {ia ib ic : Nat} {va vb : Fr}
    (hza : z ia = va) (hzb : z ib = vb) (hzc : z ic = va * vb) :
    constraintHolds z ⟨collectPairs [(ia, 1)], collectPairs [(ib, 1)],
      collectPairs [(ic, 1)]⟩ := by
  simp [constraintHolds, collectPairs, aupsert, lcEval, hza, hzb, hzc]

theorem subRow_sat {z : Nat → Fr} {ia ib ic : Nat} {va vb : Fr}
    (hne : ia ≠ ib) (hz0 : z 0 = 1) (hza : z ia = va) (hzb : z ib = vb)
    (hzc : z ic = va - vb) :
    constraintHolds z ⟨collectPairs [(ia, 1), (ib, -1)], collectPairs [(0, 1)],
      collectPairs [(ic, 1)]⟩ := by
  rw [constraintHolds, collectPairs_pair hne]
  simp [collectPairs, aupsert, lcEval, hza, hzb, hzc, hz0]
  ring

theorem eqRow2_sat {z : Nat → Fr} {io : Nat} (hzo : z io = 0) :
    constraintHolds z ⟨collectPairs [(io, 1)], collectPairs [(io, 1)],
      collectPairs [(0, (0 : Fr))]⟩ := by
  simp [constraintHolds, collectPairs, aupsert, lcEval, hzo]

theorem hashRow_sat {z : Nat → Fr} {ii io : Nat} {vi : Fr}
    (hz0 : z 0 = 1) (hzi : z ii = vi) (hzo : z io = vi * i32_to_fr 7) :
    constraintHolds z ⟨collectPairs [(ii, 1)], collectPairs [(0, i32_to_fr 7)],
      collectPairs [(io, 1)]⟩ := by
  simp [constraintHolds, collectPairs, aupsert, lcEval, hz0, hzi, hzo]

theorem constRow_sat {z : Nat → Fr} {ic : Nat} {v : Int}
    (hz0 : z 0 = 1) (hzc : z ic = i32_to_fr v) :
    constraintHolds z ⟨collectPairs [(0, i32_to_fr v)], collectPairs [(0, (1 : Fr))],
      collectPairs [(ic, 1)]⟩ := by
  simp [constraintHolds, collectPairs, aupsert, lcEval, hz0, hzc]

theorem xorRow2_sat {z : Nat → Fr} {ia ib ip ic : Nat} {va vb : Fr}
    (hab : ia ≠ ib) (hap : ia ≠ ip) (hbp : ib ≠ ip) (hz0 : z 0 = 1)
    (hza : z ia = va) (hzb : z ib = vb) (hzp : z ip = va * vb)
    (hzc : z ic = va + vb - i32_to_fr 2 * (va * vb)) :
    constraintHolds z ⟨collectPairs [(ia, 1), (ib, 1), (ip, i32_to_fr (-2))],
      collectPairs [(0, 1)], collectPairs [(ic, 1)]⟩ := by
  have hm2 : i32_to_fr (-2) = -(i32_to_fr 2) := by decide
  rw [constraintHolds, collectPairs_triple hab hap hbp]
  simp [collectPairs, aupsert, lcEval, hza, hzb, hzp, hzc, hz0, hm2]
  ring

theorem xorRow3_sat {z : Nat → Fr} {ia : Nat} {va : Fr}
    (hza : z ia = va) (hbit : va = 0 ∨ va = 1) :
    constraintHolds z ⟨collectPairs [(ia, 1)], collectPairs [(ia, 1)],
      collectPairs [(ia, 1)]⟩ := by
  rcases hbit with rfl | rfl <;>
    simp [constraintHolds, collectPairs, aupsert, lcEval, hza]

/-- Every constraint emitted for one gate holds of any assignment that agrees
with the final wire valuation through the final var_map. -/
theorem compileGate_sat (L : Name → Option Fr) (z : Nat → Fr) (g : Gate)
    (vm : List (Name × Nat)) (next : Nat) (vmF : List (Name × Nat))
    (hok : VmOk vm next) (hone : alookup oneName vm = some 0)
    (honeL : L oneName = some 1)
    (hext : VmExt (compileGate vm next g).1 vmF)
    (hlink : ∀ n i v, alookup n vmF = some i → L n = some v → z i = v)
    (hGH : GateHolds L g) (hargs : gateArgsOK g) :
    ∀ con ∈ (compileGate vm next g).2.2, constraintHolds z con := by
  obtain ⟨g1, g2, g3, g4, g5⟩ := compileGate_inv g hok hone
  have hz0 : z 0 = 1 := hlink oneName 0 1 (vmExt_lookup hext g4) honeL
  cases g with
  | Add a b c m =>
    obtain ⟨va, vb, hLa, hLb, hLc⟩ := hGH
    obtain ⟨h1a, h1b, h1c, h1d, h1e⟩ := get_index_step a vm next hok
    obtain ⟨h2a, h2b, h2c, h2d, h2e⟩ := get_index_step b _ _ h1a
    obtain ⟨h3a, h3b, h3c, h3d, h3e⟩ := get_index_step c _ _ h2a
    have la := vmExt_lookup h3b (vmExt_lookup h2b h1e)
    have lb := vmExt_lookup h3b h2e
    have hne := lookup_ne_idx h3a la lb hargs
    have hza := hlink a _ va (vmExt_lookup hext la) hLa
    have hzb := hlink b _ vb (vmExt_lookup hext lb) hLb
    have hzc := hlink c _ (va + vb) (vmExt_lookup hext h3e) hLc
    have goneC := vmExt_lookup h3b (vmExt_lookup h2b (vmExt_lookup h1b hone))
    intro con hcon
    simp only [compileGate, List.mem_singleton] at hcon
    subst hcon
    rw [oneIdx_of_lookup goneC]
    exact addRow_sat hne hz0 hza hzb hzc
  | Mul a b c m =>
    obtain ⟨va, vb, hLa, hLb, hLc⟩ := hGH
    obtain ⟨h1a, h1b, h1c, h1d, h1e⟩ := get_index_step a vm next hok
    obtain ⟨h2a, h2b, h2c, h2d, h2e⟩ := get_index_step b _ _ h1a
    obtain ⟨h3a, h3b, h3c, h3d, h3e⟩ := get_index_step c _ _ h2a
    have la := vmExt_lookup h3b (vmExt_lookup h2b h1e)
    have lb := vmExt_lookup h3b h2e
    have hza := hlink a _ va (vmExt_lookup hext la) hLa
    have hzb := hlink b _ vb (vmExt_lookup hext lb) hLb
    have hzc := hlink c _ (va * vb) (vmExt_lookup hext h3e) hLc
    intro con hcon
    simp only [compileGate, List.mem_singleton] at hcon
    subst hcon
    exact mulRow_sat hza hzb hzc
  | Sub a b c m =>
    obtain ⟨va, vb, hLa, hLb, hLc⟩ := hGH
    obtain ⟨h1a, h1b, h1c, h1d, h1e⟩ := get_index_step a vm next hok
    obtain ⟨h2a, h2b, h2c, h2d, h2e⟩ := get_index_step b _ _ h1a
    obtain ⟨h3a, h3b, h3c, h3d, h3e⟩ := get_index_step c _ _ h2a
    have la := vmExt_lookup h3b (vmExt_lookup h2b h1e)
    have lb := vmExt_lookup h3b h2e
    have hne := lookup_ne_idx h3a la lb hargs
    have hza := hlink a _ va (vmExt_lookup hext la) hLa
    have hzb := hlink b _ vb (vmExt_lookup hext lb) hLb
    have hzc := hlink c _ (va - vb) (vmExt_lookup hext h3e) hLc
    have goneC := vmExt_lookup h3b (vmExt_lookup h2b (vmExt_lookup h1b hone))
    intro con hcon
    simp only [compileGate, List.mem_singleton] at hcon
    subst hcon
    rw [oneIdx_of_lookup goneC]
    exact subRow_sat hne hz0 hza hzb hzc
  | Eq a b outp =>
    obtain ⟨va, hLa, hLb, hLo⟩ := hGH
    obtain ⟨h1a, h1b, h1c, h1d, h1e⟩ := get_index_step a vm next hok
    obtain ⟨h2a, h2b, h2c, h2d, h2e⟩ := get_index_step b _ _ h1a
    obtain ⟨h3a, h3b, h3c, h3d, h3e⟩ := get_index_step outp _ _ h2a
    have la := vmExt_lookup h3b (vmExt_lookup h2b h1e)
    have lb := vmExt_lookup h3b h2e
    have hne := lookup_ne_idx h3a la lb hargs
    have hza := hlink a _ va (vmExt_lookup hext la) hLa
    have hzb := hlink b _ va (vmExt_lookup hext lb) hLb
    have hzo := hlink outp _ 0 (vmExt_lookup hext h3e) hLo
    have goneC := vmExt_lookup h3b (vmExt_lookup h2b (vmExt_lookup h1b hone))
    intro con hcon
    simp only [compileGate, List.mem_cons, List.mem_singleton, List.not_mem_nil,
      or_false] at hcon
    rcases hcon with hcon | hcon <;> subst hcon <;> rw [oneIdx_of_lookup goneC]
    · exact subRow_sat hne hz0 hza hzb (by rw [hzo]; ring)
    · exact eqRow2_sat hzo
  | Hash inp outp =>
    obtain ⟨vi, hLi, hLo⟩ := hGH
    obtain ⟨h1a, h1b, h1c, h1d, h1e⟩ := get_index_step inp vm next hok
    obtain ⟨h2a, h2b, h2c, h2d, h2e⟩ := get_index_step outp _ _ h1a
    have li := vmExt_lookup h2b h1e
    have hzi := hlink inp _ vi (vmExt_lookup hext li) hLi
    have hzo := hlink outp _ (vi * i32_to_fr 7) (vmExt_lookup hext h2e) hLo
    have goneC := vmExt_lookup h2b (vmExt_lookup h1b hone)
    intro con hcon
    simp only [compileGate, List.mem_singleton] at hcon
    subst hcon
    rw [oneIdx_of_lookup goneC]
    exact hashRow_sat hz0 hzi hzo
  | Const nm v =>
    obtain ⟨h1a, h1b, h1c, h1d, h1e⟩ := get_index_step nm vm next hok
    have hzn := hlink nm _ (i32_to_fr v) (vmExt_lookup hext h1e) hGH
    have goneC := vmExt_lookup h1b hone
    intro con hcon
    simp only [compileGate, List.mem_singleton] at hcon
    subst hcon
    rw [oneIdx_of_lookup goneC]
    exact constRow_sat hz0 hzn
  | Xor a b c =>
    obtain ⟨va, vb, hLa, hLb, hba, hbb, hLp, hLc⟩ := hGH
    obtain ⟨h1a, h1b, h1c, h1d, h1e⟩ := get_index_step a vm next hok
    obtain ⟨h2a, h2b, h2c, h2d, h2e⟩ := get_index_step b _ _ h1a
    obtain ⟨h3a, h3b, h3c, h3d, h3e⟩ := get_index_step (xorProd a b) _ _ h2a
    obtain ⟨h4a, h4b, h4c, h4d, h4e⟩ := get_index_step c _ _ h3a
    have la := vmExt_lookup h4b (vmExt_lookup h3b (vmExt_lookup h2b h1e))
    have lb := vmExt_lookup h4b (vmExt_lookup h3b h2e)
    have lp := vmExt_lookup h4b h3e
    have hab := lookup_ne_idx h4a la lb hargs
    have hap := lookup_ne_idx h4a la lp (Ne.symm (xorProd_ne_left a b))
    have hbp := lookup_ne_idx h4a lb lp (Ne.symm (xorProd_ne_right a b))
    have hza := hlink a _ va (vmExt_lookup hext la) hLa
    have hzb := hlink b _ vb (vmExt_lookup hext lb) hLb
    have hzp := hlink (xorProd a b) _ (va * vb) (vmExt_lookup hext lp) hLp
    have hzc := hlink c _ (va + vb - i32_to_fr 2 * (va * vb))
      (vmExt_lookup hext h4e) hLc
    intro con hcon
    simp only [compileGate, List.mem_cons, List.mem_singleton, List.not_mem_nil,
      or_false] at hcon
    rcases hcon with hcon | hcon | hcon | hcon <;> subst hcon
    · exact mulRow_sat hza hzb hzp
    · rw [oneIdx_of_lookup
        (vmExt_lookup h4b (vmExt_lookup h3b (vmExt_lookup h2b (vmExt_lookup h1b hone))))]
      exact xorRow2_sat hab hap hbp hz0 hza hzb hzp hzc
    · exact xorRow3_sat hza hba
    · exact xorRow3_sat hzb hbb

/-- Every constraint emitted by the gate loop holds of any assignment that
agrees with the final wire valuation through the final var_map. -/
theorem compileGates_sat (L : Name → Option Fr) (z : Nat → Fr) :
    ∀ (gs : List Gate) (vm : List (Name × Nat)) (next : Nat),
      VmOk vm next → alookup oneName vm = some 0 → L oneName = some 1 →
      (∀ g ∈ gs, GateHolds L g ∧ gateArgsOK g) →
      (∀ n i v, alookup n (compileGates vm next gs).1 = some i → L n = some v → z i = v) →
      ∀ con ∈ (compileGates vm next gs).2.2, constraintHolds z con := by
  intro gs
  induction gs with
  | nil =>
    intro vm next _ _ _ _ _ con hcon
    simp [compileGates] at hcon
  | cons g rest ih =>
    intro vm next hok hone honeL hgh hlink con hcon
    obtain ⟨g1, g2, g3, g4, g5⟩ := compileGate_inv g hok hone
    obtain ⟨r1, r2, r3, r4, r5⟩ := compileGates_inv rest _ _ g1 g4
    have hlink2 : ∀ n i v,
        alookup n (compileGates (compileGate vm next g).1
          (compileGate vm next g).2.1 rest).1 = some i →
        L n = some v → z i = v := hlink
    simp only [compileGates, List.mem_append] at hcon
    rcases hcon with hc | hc
    · exact compileGate_sat L z g vm next _ hok hone honeL r2 hlink2
        (hgh g (by simp)).1 (hgh g (by simp)).2 con hc
    · exact ih _ _ g1 g4 honeL (fun gx hx => hgh gx (by simp [hx])) hlink2 con hc

/-- Every preamble constraint pins a seeded public wire: it is the pin
constraint of an index bound in the preamble var_map to a name whose seeded
value is the field image of the pinned literal. -/
theorem preamble_cons_char (c : Circuit) : ∀ con ∈ (preambleState c).cons,
    ∃ nm idx v, con = pinConstraint idx v ∧
      alookup nm (preambleState c).vm = some idx ∧
      alookup nm (seedWires c) = some (i32_to_fr v) := by
  have h0 : VmOk [(oneName, 0)] 1 := by
    unfold VmOk
    rfl
  have hone0 : alookup oneName [(oneName, (0 : Nat))] = some 0 := by simp [alookup]
  cases hs : alookup c.sender c.inputs with
  | none =>
    cases hr : alookup c.receiver c.inputs with
    | none =>
      have hpre : preambleState c =
          pubStep transferName c.transfer_amount ⟨[(oneName, 0)], 1, [], []⟩ := by
        simp only [preambleState, hs, hr]
      obtain ⟨hcT, hlT, hpT⟩ :=
        pubStep_spec transferName c.transfer_amount ⟨[(oneName, 0)], 1, [], []⟩ h0 hone0
      intro con hcon
      rw [hpre, hcT] at hcon
      simp only [List.nil_append, List.mem_singleton] at hcon
      subst hcon
      exact ⟨transferName, _, _, rfl, by rw [hpre]; exact hlT, seed_transfer c⟩
    | some vr =>
      have hpre : preambleState c =
          pubStep transferName c.transfer_amount
            (pubStep (balanceName c.receiver) vr ⟨[(oneName, 0)], 1, [], []⟩) := by
        simp only [preambleState, hs, hr]
      obtain ⟨a1, a2, a3, a4, a5, a6, a7⟩ :=
        pubStep_inv (balanceName c.receiver) vr ⟨[(oneName, 0)], 1, [], []⟩ h0 hone0
      obtain ⟨hcR, hlR, hpR⟩ :=
        pubStep_spec (balanceName c.receiver) vr ⟨[(oneName, 0)], 1, [], []⟩ h0 hone0
      obtain ⟨b1, b2, b3, b4, b5, b6, b7⟩ :=
        pubStep_inv transferName c.transfer_amount _ a1 a4
      obtain ⟨hcT, hlT, hpT⟩ :=
        pubStep_spec transferName c.transfer_amount _ a1 a4
      intro con hcon
      rw [hpre, hcT, hcR] at hcon
      simp only [List.nil_append, List.mem_append, List.mem_singleton] at hcon
      rcases hcon with hcon | hcon <;> subst hcon
      · exact ⟨balanceName c.receiver, _, _, rfl,
          by rw [hpre]; exact vmExt_lookup b2 hlR, seed_receiver c hr⟩
      · exact ⟨transferName, _, _, rfl, by rw [hpre]; exact hlT, seed_transfer c⟩
  | some vs =>
    obtain ⟨a1, a2, a3, a4, a5, a6, a7⟩ :=
      pubStep_inv (balanceName c.sender) vs ⟨[(oneName, 0)], 1, [], []⟩ h0 hone0
    obtain ⟨hcS, hlS, hpS⟩ :=
      pubStep_spec (balanceName c.sender) vs ⟨[(oneName, 0)], 1, [], []⟩ h0 hone0
    cases hr : alookup c.receiver c.inputs with
    | none =>
      have hpre : preambleState c =
          pubStep transferName c.transfer_amount
            (pubStep (balanceName c.sender) vs ⟨[(oneName, 0)], 1, [], []⟩) := by
        simp only [preambleState, hs, hr]
      obtain ⟨b1, b2, b3, b4, b5, b6, b7⟩ :=
        pubStep_inv transferName c.transfer_amount _ a1 a4
      obtain ⟨hcT, hlT, hpT⟩ :=
        pubStep_spec transferName c.transfer_amount _ a1 a4
      intro con hcon
      rw [hpre, hcT, hcS] at hcon
      simp only [List.nil_append, List.mem_append, List.mem_singleton] at hcon
      rcases hcon with hcon | hcon <;> subst hcon
      · exact ⟨balanceName c.sender, _, _, rfl,
          by rw [hpre]; exact vmExt_lookup b2 hlS, seed_sender c hs⟩
      · exact ⟨transferName, _, _, rfl, by rw [hpre]; exact hlT, seed_transfer c⟩
    | some vr =>
      have hpre : preambleState c =
          pubStep transferName c.transfer_amount
            (pubStep (balanceName c.receiver) vr
              (pubStep (balanceName c.sender) vs ⟨[(oneName, 0)], 1, [], []⟩)) := by
        simp only [preambleState, hs, hr]
      obtain ⟨b1, b2, b3, b4, b5, b6, b7⟩ :=
        pubStep_inv (balanceName c.receiver) vr _ a1 a4
      obtain ⟨hcR, hlR, hpR⟩ :=
        pubStep_spec (balanceName c.receiver) vr _ a1 a4
      obtain ⟨c1, c2, c3, c4, c5, c6, c7⟩ :=
        pubStep_inv transferName c.transfer_amount _ b1 b4
      obtain ⟨hcT, hlT, hpT⟩ :=
        pubStep_spec transferName c.transfer_amount _ b1 b4
      intro con hcon
      rw [hpre, hcT, hcR, hcS] at hcon
      simp only [List.nil_append, List.mem_append, List.mem_singleton] at hcon
      rcases hcon with (hcon | hcon) | hcon <;> subst hcon
      · exact ⟨balanceName c.sender, _, _, rfl,
          by rw [hpre]; exact vmExt_lookup c2 (vmExt_lookup b2 hlS), seed_sender c hs⟩
      · exact ⟨balanceName c.receiver, _, _, rfl,
          by rw [hpre]; exact vmExt_lookup c2 hlR, seed_receiver c hr⟩
      · exact ⟨transferName, _, _, rfl, by rw [hpre]; exact hlT, seed_transfer c⟩

end StepB

/-- C1 as stated fails: the duplicated-operand Add circuit computes a witness
successfully, but the witness violates the emitted gate constraint because
the HashMap collect merged the two coefficients of the repeated operand. -/
theorem C1_counterexample :
    compute_witness cwdup (to_r1cs_system cwdup).var_map = .ok wdup ∧
    ¬ satisfiesAll (to_r1cs_system cwdup) wdup := by
  constructor
  · decide
  · decide

/-- C1 amended: for a straight-line circuit (no wire is written twice or
after being seeded, and the two-operand sum gates have distinct operands), a
successful witness satisfies every emitted constraint. -/
theorem C1_witness_satisfies (c : Circuit) (hsl : StraightLine c)
    (w : List (Nat × Fr)) (hw : compute_witness c (to_r1cs_system c).var_map = .ok w) :
    satisfiesAll (to_r1cs_system c) w := by
  obtain ⟨wires, he, hwp, hcc⟩ := compute_witness_ok hw
  subst hwp
  obtain ⟨hstab, hGH⟩ := evalGates_holds c.gates (seedWires c) wires he hsl.1
    (fun n hn => hsl.2.1 n (alookup_isSome_iff.1 hn))
  have hnd : (wires.map Prod.fst).Nodup := evalGates_nodup he (seedWires_nodup c)
  obtain ⟨p1, p2, p3⟩ := preambleState_inv c
  obtain ⟨g1, g2, g3, g4, g5⟩ := compileGates_inv c.gates _ _ p1 p2
  have hvmF : VmOk (to_r1cs_system c).var_map
      (compileGates (preambleState c).vm (preambleState c).next c.gates).2.1 := by
    rw [to_r1cs_vm]
    exact g1
  have hlink : ∀ n i v, alookup n (to_r1cs_system c).var_map = some i →
      alookup n wires = some v →
      zOf (projectWitness (to_r1cs_system c).var_map wires []) i = v := by
    intro n i v hvm hwv
    have huniq : ∀ n2, alookup n2 (to_r1cs_system c).var_map = some i → n2 = n :=
      fun n2 h2 => vmOk_lookup_inj hvmF h2 hvm
    rw [zOf, projectWitness_get _ wires [] hnd hvm hwv huniq]
    rfl
  have hseedW : ∀ nm v, alookup nm (seedWires c) = some v → alookup nm wires = some v := by
    intro nm v hv
    rw [evalGates_stable he (hsl.2.1 nm (alookup_isSome_iff.1 (by rw [hv]; rfl)))]
    exact hv
  have honeW : alookup oneName wires = some 1 := hseedW oneName 1 (seed_one c)
  have hz0 : zOf (projectWitness (to_r1cs_system c).var_map wires []) 0 = 1 :=
    hlink oneName 0 1 (by rw [to_r1cs_vm]; exact vmExt_lookup g2 p2) honeW
  intro con hcon
  rw [to_r1cs_raw] at hcon
  rcases List.mem_append.1 hcon with hc | hc
  · obtain ⟨nm, idx, v, hpin, hvm, hseed⟩ := preamble_cons_char c con hc
    subst hpin
    have hW := hseedW nm (i32_to_fr v) hseed
    have hidx : alookup nm (to_r1cs_system c).var_map = some idx := by
      rw [to_r1cs_vm]
      exact vmExt_lookup g2 hvm
    exact pin_sat hz0 (hlink nm idx (i32_to_fr v) hidx hW)
  · refine compileGates_sat (fun n => alookup n wires)
      (zOf (projectWitness (to_r1cs_system c).var_map wires [])) c.gates
      (preambleState c).vm (preambleState c).next p1 p2 honeW
      (fun g hg => ⟨hGH g hg, hsl.2.2 g hg⟩) ?_ con hc
    intro n i v hvm hwv
    exact hlink n i v (by rw [to_r1cs_vm]; exact hvm) hwv

/-- Witness for the amended C1 on the S1 add-chain circuit. -/
theorem C1_witness :
    StraightLine cw1 ∧ satisfiesAll (to_r1cs_system cw1) ws1 :=
  ⟨by decide, C1_witness_satisfies cw1 (by decide) ws1 (by rfl)⟩

/-- Witness for the amended C7: coverage and the index-0 value on the S1
add-chain circuit, and the missing-witness error on a var_map that binds a
name no wire computes. -/
theorem C7_witness :
    compute_witness cw1 (to_r1cs_system cw1).var_map = .ok ws1 ∧
    (∀ p ∈ (to_r1cs_system cw1).var_map, (alookup p.2 ws1).isSome) ∧
    alookup 0 ws1 = some 1 ∧
    (∃ n idx, (n, idx) ∈ [(("zzz" : Name), (0 : Nat))] ∧
      alookup idx (projectWitness [(("zzz" : Name), (0 : Nat))] wires1 []) = none ∧
      compute_witness cw1 [(("zzz" : Name), (0 : Nat))] =
        .error (.missingWitness n idx)) := by
  have h1 := C7_witness_coverage.1 cw1 (to_r1cs_system cw1).var_map ws1 (by rfl)
  have h2 := C7_witness_coverage.2 cw1 [(("zzz" : Name), (0 : Nat))] wires1
    (by decide) (by decide)
  exact ⟨by rfl, h1.1, h1.2.2 (by decide) (by decide) (by decide), h2⟩

section Alloc

theorem allocShape_append (evs1 evs2 : List AllocEvent) :
    allocShape (evs1 ++ evs2) = allocShape evs1 ++ allocShape evs2 := by
  simp [allocShape]

/-- The public-input allocation loop produces the same allocation shape for
any two assignments. -/
theorem allocPublics_shape (vm : List (Name × Nat))
    (wa1 wa2 : Option (List (Nat × Fr))) :
    ∀ (names : List Name) (alloc : List Nat) (evs1 evs2 : List AllocEvent),
      allocShape evs1 = allocShape evs2 →
      Except.map (fun r => (r.1, allocShape r.2)) (allocPublics vm wa1 names alloc evs1) =
      Except.map (fun r => (r.1, allocShape r.2)) (allocPublics vm wa2 names alloc evs2) := by
  intro names
  induction names with
  | nil =>
    intro alloc evs1 evs2 h
    simp [allocPublics, Except.map, h]
  | cons n rest ih =>
    intro alloc evs1 evs2 h
    cases hn : alookup n vm with
    | none => simp [allocPublics, hn, Except.map]
    | some idx =>
      simp only [allocPublics, hn]
      refine ih _ _ _ ?_
      rw [allocShape_append, allocShape_append, h]
      simp [allocShape]

/-- The private-witness allocation loop produces the same allocation shape
for any two assignments. -/
theorem allocPrivates_shape (wa1 wa2 : Option (List (Nat × Fr))) :
    ∀ (l : List Nat) (alloc : List Nat) (evs1 evs2 : List AllocEvent),
      allocShape evs1 = allocShape evs2 →
      allocShape (allocPrivates wa1 alloc evs1 l) =
        allocShape (allocPrivates wa2 alloc evs2 l) := by
  intro l
  induction l with
  | nil => intro alloc evs1 evs2 h; exact h
  | cons i rest ih =>
    intro alloc evs1 evs2 h
    by_cases hi : i ∈ alloc
    · simp only [allocPrivates, if_pos hi]
      exact ih _ _ _ h
    · simp only [allocPrivates, if_neg hi]
      refine ih _ _ _ ?_
      rw [allocShape_append, allocShape_append, h]
      simp [allocShape]

/-- Reduction of the allocation phase once the constant-one index is known. -/
theorem generate_allocations_eq (sys : R1CSSystem) (wa : Option (List (Nat × Fr)))
    (i1 : Nat) (h1 : alookup oneName sys.var_map = some i1) :
    generate_allocations sys wa =
      match allocPublics sys.var_map wa sys.public_input_names
          [i1] [⟨.input, i1, 1⟩] with
      | .error e => .error e
      | .ok r => .ok (allocPrivates wa r.1 r.2 (List.range sys.num_variables)) := by
  unfold generate_allocations
  rw [h1]

/-- The whole allocation phase produces the same allocation shape during
setup (no assignment) and during proving (any assignment). -/
theorem generate_allocations_shape (sys : R1CSSystem) (wa : List (Nat × Fr)) :
    Except.map allocShape (generate_allocations sys none) =
      Except.map allocShape (generate_allocations sys (some wa)) := by
  cases h1 : alookup oneName sys.var_map with
  | none =>
    unfold generate_allocations
    rw [h1]
  | some oneOrig =>
    rw [generate_allocations_eq sys none oneOrig h1,
      generate_allocations_eq sys (some wa) oneOrig h1]
    have hp := allocPublics_shape sys.var_map none (some wa) sys.public_input_names
      [oneOrig] [⟨.input, oneOrig, 1⟩] [⟨.input, oneOrig, 1⟩] rfl
    cases h2 : allocPublics sys.var_map none sys.public_input_names
        [oneOrig] [⟨.input, oneOrig, 1⟩] with
    | error e =>
      cases h3 : allocPublics sys.var_map (some wa) sys.public_input_names
          [oneOrig] [⟨.input, oneOrig, 1⟩] with
      | error e2 =>
        cases e
        cases e2
        rfl
      | ok r2 =>
        rw [h2, h3] at hp
        simp [Except.map] at hp
    | ok r1 =>
      cases h3 : allocPublics sys.var_map (some wa) sys.public_input_names
          [oneOrig] [⟨.input, oneOrig, 1⟩] with
      | error e2 =>
        rw [h2, h3] at hp
        simp [Except.map] at hp
      | ok r2 =>
        rw [h2, h3] at hp
        simp only [Except.map, Except.ok.injEq, Prod.mk.injEq] at hp
        simp only [Except.map, Except.ok.injEq]
        rw [← hp.1]
        exact allocPrivates_shape none (some wa) _ _ _ _ hp.2

/-- Success form of the public-input allocation loop when every name is
bound in the var_map. -/
theorem allocPublics_ok (vm : List (Name × Nat)) (wa : Option (List (Nat × Fr))) :
    ∀ (names : List Name) (alloc : List Nat) (evs : List AllocEvent),
      (∀ n ∈ names, (alookup n vm).isSome) →
      allocPublics vm wa names alloc evs = .ok
        (alloc ++ names.map (fun n => (alookup n vm).getD 0),
         evs ++ names.map (fun n =>
           ⟨.input, (alookup n vm).getD 0,
            (wa.bind (alookup ((alookup n vm).getD 0))).getD 0⟩)) := by
  intro names
  induction names with
  | nil => intro alloc evs _; simp [allocPublics]
  | cons n rest ih =>
    intro alloc evs hall
    have hn : (alookup n vm).isSome := hall n (by simp)
    cases hl : alookup n vm with
    | none => rw [hl] at hn; simp at hn
    | some idx =>
      simp only [allocPublics, hl]
      rw [ih _ _ (fun n2 h2 => hall n2 (by simp [h2]))]
      simp [hl]

/-- The private-witness allocation loop appends one witness event per index
not yet allocated, in list order. -/
theorem allocPrivates_shape_explicit (wa : Option (List (Nat × Fr))) :
    ∀ (l : List Nat) (alloc : List Nat) (evs : List AllocEvent), l.Nodup →
      allocShape (allocPrivates wa alloc evs l) =
        allocShape evs ++
          (l.filter (fun i => decide (¬ i ∈ alloc))).map
            (fun i => (AllocKind.witness, i)) := by
  intro l
  induction l with
  | nil => intro alloc evs _; simp [allocPrivates]
  | cons i rest ih =>
    intro alloc evs hnd
    rw [List.nodup_cons] at hnd
    by_cases hi : i ∈ alloc
    · simp only [allocPrivates, if_pos hi]
      rw [ih _ _ hnd.2]
      simp [List.filter_cons, hi]
    · simp only [allocPrivates, if_neg hi]
      rw [ih _ _ hnd.2]
      have hfil : rest.filter (fun j => decide (¬ j ∈ alloc ++ [i])) =
          rest.filter (fun j => decide (¬ j ∈ alloc)) := by
        apply List.filter_congr
        intro j hj
        have hji : ¬(j = i) := fun hx => hnd.1 (hx ▸ hj)
        simp [List.mem_append, hji]
      rw [hfil]
      simp [List.filter_cons, hi, allocShape_append, allocShape]

end Alloc

/-- C5: the constraint-synthesis callback allocates host-SNARK variables in
the same order during setup (no assignment) and during proving (assignment
present), and that order is the constant-one public input, then one public
input per declared name, then every remaining index below num_variables as a
private witness in increasing order. -/
theorem C5_allocation_order (sys : R1CSSystem) (wa : List (Nat × Fr)) (i1 : Nat)
    (h1 : alookup oneName sys.var_map = some i1)
    (hp : ∀ n ∈ sys.public_input_names, (alookup n sys.var_map).isSome) :
    Except.map allocShape (generate_allocations sys none) =
      Except.map allocShape (generate_allocations sys (some wa)) ∧
    ∃ evs, generate_allocations sys (some wa) = .ok evs ∧
      allocShape evs =
        (AllocKind.input, i1) ::
          (sys.public_input_names.map
            (fun n => (AllocKind.input, (alookup n sys.var_map).getD 0)) ++
          ((List.range sys.num_variables).filter
            (fun i => decide (¬ i ∈ i1 :: sys.public_input_names.map
              (fun n => (alookup n sys.var_map).getD 0)))).map
            (fun i => (AllocKind.witness, i))) := by
  refine ⟨generate_allocations_shape sys wa, ?_⟩
  rw [generate_allocations_eq sys (some wa) i1 h1,
    allocPublics_ok sys.var_map (some wa) sys.public_input_names
      [i1] [⟨.input, i1, 1⟩] hp]
  refine ⟨_, rfl, ?_⟩
  rw [allocPrivates_shape_explicit (some wa) (List.range sys.num_variables) _ _
    (List.nodup_range _)]
  simp [allocShape_append, allocShape, List.map_map, Function.comp]

/-- Witness for C5 on the compiled S1 circuit and its witness assignment. -/
theorem C5_witness :
    alookup oneName (to_r1cs_system cw1).var_map = some 0 ∧
    Except.map allocShape (generate_allocations (to_r1cs_system cw1) none) =
      Except.map allocShape (generate_allocations (to_r1cs_system cw1) (some ws1)) :=
  ⟨by decide, (C5_allocation_order (to_r1cs_system cw1) ws1 0 (by decide) (by decide)).1⟩

end Ark
